import Mathlib

/-!
Shallow embedding of the Disjoint-Set-Union (`DisjoinSet`) class from
`src/LLD/02_factoryDesignPattern.md` (C++), together with proofs of the
specified properties.

The C++ class keeps three `vector<int>` fields (`rank`, `parent`, `size`);
we model them as `List Int`.  `vector::operator[]` performs no bounds
check; an out-of-bounds access is undefined behavior in C++, which the
embedding models as the abnormal outcome `Err.oobAccess` (the execution
gets stuck; it does not continue with garbage).  `vector::resize` called
with a negative `int` converts it to a huge `size_t` and throws
`std::length_error`, modeled as `Err.lengthError`.  The spec's two error
kinds `InvalidSize` and `OutOfRange` are included in the same outcome type
so that the spec's error-handling claims can be stated; the code itself
never produces them (it has no checks).

The recursive `findUp` terminates in C++ only when parent chains are
acyclic; the embedding uses explicit fuel (`findUpAux`), with `Res.fuelOut`
marking exhaustion.  We prove that on well-formed states the chosen fuel
(`length + 1`) is never exhausted.
-/

namespace SystemDesign

/-- Abnormal outcomes of the embedded C++ code, plus the two error kinds the
specification names (`invalidSize`, `outOfRange`), which the code never
produces. -/
inductive Err where
  | invalidSize
  | outOfRange
  | oobAccess
  | lengthError
  deriving DecidableEq

/-- Result of an embedded computation: normal value, abnormal outcome, or
fuel exhaustion (an artifact of embedding the unbounded C++ recursion). -/
inductive Res (α : Type) where
  | ok (a : α)
  | err (e : Err)
  | fuelOut
  deriving DecidableEq

/-- Sequencing of embedded computations. -/
def Res.bind {α β : Type} : Res α → (α → Res β) → Res β
  | .ok a, f => f a
  | .err e, _ => .err e
  | .fuelOut, _ => .fuelOut

/-- Mapping over a result. -/
def Res.map {α β : Type} (f : α → β) : Res α → Res β
  | .ok a => .ok (f a)
  | .err e => .err e
  | .fuelOut => .fuelOut

/-- C++ `v[i]` read: unchecked in the source; reading outside `[0, v.length)`
is undefined behavior, modeled as `Err.oobAccess`. -/
def readVec (v : List Int) (i : Int) : Res Int :=
  if 0 ≤ i ∧ i.toNat < v.length then .ok (v.getD i.toNat 0) else .err .oobAccess

/-- C++ `v[i] = x` write: unchecked in the source; writing outside the bounds
is undefined behavior, modeled as `Err.oobAccess`. -/
def writeVec (v : List Int) (i : Int) (x : Int) : Res (List Int) :=
  if 0 ≤ i ∧ i.toNat < v.length then .ok (v.set i.toNat x) else .err .oobAccess

/-- The state of the C++ class: `vector<int> rank, parent, size`. -/
structure DisjoinSet where
  rank : List Int
  parent : List Int
  size : List Int
  deriving DecidableEq

/-- C++ `int findUp(int node)` with explicit fuel; it reads and writes only
the `parent` vector:
`if(node == parent[node]) return node; return parent[node] = findUp(parent[node]);`. -/
def findUpAux : Nat → List Int → Int → Res (Int × List Int)
  | 0, _, _ => .fuelOut
  | fuel+1, p, node =>
    Res.bind (readVec p node) fun pn =>
    if node = pn then .ok (node, p)
    else
      Res.bind (findUpAux fuel p pn) fun rp =>
      Res.bind (writeVec rp.2 node rp.1) fun p2 =>
      .ok (rp.1, p2)

/-- `findUp` on the parent vector, with fuel `length + 1` (sufficient on every
well-formed state, proved below). -/
def findUpP (p : List Int) (node : Int) : Res (Int × List Int) :=
  findUpAux (p.length + 1) p node

/-- The `findUp` method on the whole object (it touches only `parent`). -/
def DisjoinSet.findUp (st : DisjoinSet) (node : Int) : Res (Int × DisjoinSet) :=
  Res.bind (findUpP st.parent node) fun rp =>
  .ok (rp.1, { st with parent := rp.2 })

/-- C++ `void unionByRank(int u, int v)`.  Note the source has no
`u_up == v_up` check: when the two roots coincide the final branch runs,
writing `parent[u_up] = v_up` (a self-assignment) and incrementing
`rank[v_up]`. -/
def DisjoinSet.unionByRank (st : DisjoinSet) (u v : Int) : Res DisjoinSet :=
  Res.bind (st.findUp u) fun a =>
  Res.bind (a.2.findUp v) fun b =>
  let u_up := a.1
  let v_up := b.1
  let st2 := b.2
  Res.bind (readVec st2.rank u_up) fun ru =>
  Res.bind (readVec st2.rank v_up) fun rv =>
  if ru < rv then
    Res.bind (writeVec st2.parent u_up v_up) fun p2 =>
    .ok { st2 with parent := p2 }
  else if rv < ru then
    Res.bind (writeVec st2.parent v_up u_up) fun p2 =>
    .ok { st2 with parent := p2 }
  else
    Res.bind (writeVec st2.parent u_up v_up) fun p2 =>
    Res.bind (writeVec st2.rank v_up (rv + 1)) fun r2 =>
    .ok { st2 with parent := p2, rank := r2 }

/-- C++ `void unionBySize(int u, int v)`.  The surviving root is decided by
comparing root indices (`u_up < v_up`), not sizes; there is no
`u_up == v_up` check, so a redundant union runs the else branch, writing
`parent[v_up] = u_up` (self-assignment) and doubling `size[u_up]`. -/
def DisjoinSet.unionBySize (st : DisjoinSet) (u v : Int) : Res DisjoinSet :=
  Res.bind (st.findUp u) fun a =>
  Res.bind (a.2.findUp v) fun b =>
  let u_up := a.1
  let v_up := b.1
  let st2 := b.2
  if u_up < v_up then
    Res.bind (writeVec st2.parent u_up v_up) fun p2 =>
    Res.bind (readVec st2.size v_up) fun sv =>
    Res.bind (readVec st2.size u_up) fun su =>
    Res.bind (writeVec st2.size v_up (sv + su)) fun s2 =>
    .ok { st2 with parent := p2, size := s2 }
  else
    Res.bind (writeVec st2.parent v_up u_up) fun p2 =>
    Res.bind (readVec st2.size u_up) fun su =>
    Res.bind (readVec st2.size v_up) fun sv =>
    Res.bind (writeVec st2.size u_up (su + sv)) fun s2 =>
    .ok { st2 with parent := p2, size := s2 }

/-- C++ `bool isComponent(int v, int u) { return findUp(v) == findUp(u); }`.
C++ leaves the evaluation order of the two calls unspecified; the embedding
evaluates `findUp(v)` first (the two orders give the same root values, and
path compression commutes on the two paths). -/
def DisjoinSet.isComponent (st : DisjoinSet) (v u : Int) : Res (Bool × DisjoinSet) :=
  Res.bind (st.findUp v) fun a =>
  Res.bind (a.2.findUp u) fun b =>
  .ok (a.1 == b.1, b.2)

/-- The constructor loop `for(int i = 0; i <= n; i++) parent[i] = i;`
applied to the zero-filled vector produced by `parent.resize(n+1)`. -/
def initParent (m : Nat) : List Int :=
  (List.range m).foldl (fun p i => p.set i (Int.ofNat i)) (List.replicate m 0)

/-- C++ constructor `DisjoinSet(int n)`: `rank.resize(n+1,0)`,
`parent.resize(n+1)`, `size.resize(n+1,1)`, then the parent loop.  There is
no negative-size check: for `n = -1` the three resizes get argument `0` and
succeed (empty vectors); for `n ≤ -2` the negative `int` argument converts to
a huge `size_t` and `resize` throws `std::length_error`. -/
def DisjoinSet.create (n : Int) : Res DisjoinSet :=
  if n + 1 < 0 then .err .lengthError
  else
    .ok { rank := List.replicate (n + 1).toNat 0,
          parent := initParent (n + 1).toNat,
          size := List.replicate (n + 1).toNat 1 }

/-- One call of the public API, used to describe reachable states. -/
inductive Op where
  | find (x : Int)
  | byRank (u v : Int)
  | bySize (u v : Int)
  | isComp (v u : Int)
  deriving DecidableEq

/-- Executing one call (results of `findUp` / `isComponent` are discarded;
only the state matters for reachability). -/
def stepOp (st : DisjoinSet) : Op → Res DisjoinSet
  | .find x => Res.bind (st.findUp x) fun a => .ok a.2
  | .byRank u v => st.unionByRank u v
  | .bySize u v => st.unionBySize u v
  | .isComp v u => Res.bind (st.isComponent v u) fun a => .ok a.2

/-- Executing a sequence of calls. -/
def runOps (st : DisjoinSet) : List Op → Res DisjoinSet
  | [] => .ok st
  | op :: ops => Res.bind (stepOp st op) fun st1 => runOps st1 ops

/-- Is the element identifier in `[0, n]`? -/
def inR (n : Nat) (x : Int) : Bool := decide (0 ≤ x) && decide (x ≤ (n : Int))

/-- All arguments of the call lie in `[0, n]`. -/
def Op.inRange (n : Nat) : Op → Bool
  | .find x => inR n x
  | .byRank u v => inR n u && inR n v
  | .bySize u v => inR n u && inR n v
  | .isComp v u => inR n v && inR n u

/-- The union pairs contributed by a call (ground-truth graph edges). -/
def Op.unionPairs : Op → List (Int × Int)
  | .byRank u v => [(u, v)]
  | .bySize u v => [(u, v)]
  | _ => []

/-- Is the call a union call? -/
def Op.isUnion : Op → Bool
  | .byRank _ _ => true
  | .bySize _ _ => true
  | _ => false

/-- The union pairs of a call sequence, in order. -/
def opsPairs (ops : List Op) : List (Int × Int) :=
  (ops.map Op.unionPairs).flatten

/-- Ground truth: `a` and `b` are connected in the undirected graph whose
edges are the listed pairs (equivalence closure of the edge relation). -/
def connectedIn (ps : List (Int × Int)) (a b : Int) : Prop :=
  Relation.EqvGen (fun x y => (x, y) ∈ ps) a b

/-! ### The mathematical view of a parent vector -/

/-- One parent-pointer step, as a function on indices (out-of-range indices
are fixed points; they never occur on well-formed states). -/
def pstep (p : List Int) (i : Nat) : Nat :=
  if i < p.length then (p.getD i 0).toNat else i

/-- `k`-fold parent-pointer iteration. -/
def iterP (p : List Int) : Nat → Nat → Nat
  | 0, i => i
  | k+1, i => iterP p k (pstep p i)

/-- `i` is a representative: `parent[i] == i`. -/
def isRootN (p : List Int) (i : Nat) : Prop := pstep p i = i

instance (p : List Int) (i : Nat) : Decidable (isRootN p i) := by
  unfold isRootN; infer_instance

/-- The canonical representative of `i`: iterate the parent pointer
`length` times (enough to reach the root on any well-formed state). -/
def rootOf (p : List Int) (i : Nat) : Nat := iterP p p.length i

/-- Every stored parent is a valid index. -/
def InRange (p : List Int) : Prop :=
  ∀ i, i < p.length → 0 ≤ p.getD i 0 ∧ p.getD i 0 < (p.length : Int)

instance (p : List Int) : Decidable (InRange p) := by
  unfold InRange; infer_instance

/-- Well-formed parent vector: entries are valid indices and every chain
reaches a self-parented root within `length` steps. -/
def WFp (p : List Int) : Prop :=
  InRange p ∧ ∀ i, i < p.length → isRootN p (rootOf p i)

instance (p : List Int) : Decidable (WFp p) := by
  unfold WFp; infer_instance

/-- `a` and `b` have the same representative. -/
def sameRootN (st : DisjoinSet) (a b : Nat) : Prop :=
  rootOf st.parent a = rootOf st.parent b

/-- Well-formed state with universe `[0, n]`: all three vectors have length
`n + 1` and the parent vector is a valid forest. -/
def Inv (n : Nat) (st : DisjoinSet) : Prop :=
  st.rank.length = n + 1 ∧ st.parent.length = n + 1 ∧ st.size.length = n + 1 ∧
    WFp st.parent

/-- `Reach p i`: the parent chain from `i` reaches a representative. -/
def Reach (p : List Int) (i : Nat) : Prop := ∃ k, isRootN p (iterP p k i)

/-- `Compat p p2`: `p2` differs from `p` only by path compression — every
entry is either the old parent or the representative of its index. -/
def Compat (p p2 : List Int) : Prop :=
  p2.length = p.length ∧
    ∀ j, j < p.length → p2.getD j 0 = p.getD j 0 ∨ p2.getD j 0 = (rootOf p j : Int)

/-- The state produced by a successful construction with `n ≥ 0`. -/
def createdState (n : Nat) : DisjoinSet :=
  { rank := List.replicate (n + 1) 0,
    parent := initParent (n + 1),
    size := List.replicate (n + 1) 1 }

/-- Size bookkeeping is correct: each representative's `size` entry is the
cardinality of its class within `[0, n]`. -/
def SizeInv (n : Nat) (st : DisjoinSet) : Prop :=
  ∀ r, r ≤ n → isRootN st.parent r →
    st.size.getD r 0 =
      (((Finset.range (n + 1)).filter (fun y => rootOf st.parent y = r)).card : Int)

/-- The `unionBySize` call sequence described by a list of pairs. -/
def bySizeOps (ps : List (Int × Int)) : List Op :=
  ps.map fun q => Op.bySize q.1 q.2

/-- Every union in the sequence merges two distinct sets at the moment it is
executed (no redundant unions). -/
def allEffective (st : DisjoinSet) : List (Int × Int) → Bool
  | [] => true
  | (u, v) :: ps =>
    decide (rootOf st.parent u.toNat ≠ rootOf st.parent v.toNat) &&
      (match st.unionBySize u v with
       | .ok st2 => allEffective st2 ps
       | _ => false)

/-! ### Basic list and index lemmas -/

theorem getD_set (l : List Int) (i j : Nat) (x : Int) :
    (l.set i x).getD j 0 = if j = i ∧ j < l.length then x else l.getD j 0 := by
  by_cases hj : j < l.length
  · rw [List.getD_eq_getElem _ _ (by simpa using hj), List.getD_eq_getElem _ _ hj,
      List.getElem_set]
    by_cases hij : i = j <;> simp [hij, hj, eq_comm]
  · rw [List.getD_eq_default _ _ (by rw [List.length_set]; omega),
      List.getD_eq_default _ _ (by omega)]
    simp [hj]

theorem set_getD_self (l : List Int) (i : Nat) : l.set i (l.getD i 0) = l := by
  apply List.ext_getElem (by simp)
  intro j h1 h2
  rw [List.getElem_set]
  split
  · next h => subst h; exact List.getD_eq_getElem _ _ (by simpa using h2)
  · rfl

theorem readVec_natCast (p : List Int) (i : Nat) (h : i < p.length) :
    readVec p (i : Int) = .ok (p.getD i 0) := by
  unfold readVec
  rw [if_pos ⟨Int.natCast_nonneg i, by simpa [Int.toNat_natCast] using h⟩, Int.toNat_natCast]

theorem readVec_oob (p : List Int) (x : Int) (h : x < 0 ∨ (p.length : Int) ≤ x) :
    readVec p x = .err .oobAccess := by
  unfold readVec
  rw [if_neg]
  rintro ⟨h1, h2⟩
  rcases h with h | h
  · omega
  · omega

theorem writeVec_natCast (p : List Int) (i : Nat) (x : Int) (h : i < p.length) :
    writeVec p (i : Int) x = .ok (p.set i x) := by
  unfold writeVec
  rw [if_pos ⟨Int.natCast_nonneg i, by simpa [Int.toNat_natCast] using h⟩, Int.toNat_natCast]

theorem writeVec_oob (p : List Int) (x y : Int) (h : x < 0 ∨ (p.length : Int) ≤ x) :
    writeVec p x y = .err .oobAccess := by
  unfold writeVec
  rw [if_neg]
  rintro ⟨h1, h2⟩
  rcases h with h | h
  · omega
  · omega

/-! ### Iteration lemmas -/

theorem iterP_succ_out (p : List Int) (k i : Nat) :
    iterP p (k + 1) i = pstep p (iterP p k i) := by
  induction k generalizing i with
  | zero => rfl
  | succ k ih => rw [iterP, ih, iterP]

theorem iterP_add (p : List Int) (a b i : Nat) :
    iterP p (a + b) i = iterP p b (iterP p a i) := by
  induction b with
  | zero => rfl
  | succ b ih => rw [← Nat.add_assoc, iterP_succ_out, ih, iterP_succ_out]

theorem isRootN_iterP (p : List Int) (r : Nat) (h : isRootN p r) (k : Nat) :
    iterP p k r = r := by
  induction k with
  | zero => rfl
  | succ k ih => rw [iterP_succ_out, ih, h]

theorem pstep_lt (p : List Int) (hIn : InRange p) (i : Nat) (h : i < p.length) :
    pstep p i < p.length := by
  unfold pstep
  rw [if_pos h]
  have := hIn i h
  omega

theorem iterP_lt (p : List Int) (hIn : InRange p) (k i : Nat) (h : i < p.length) :
    iterP p k i < p.length := by
  induction k generalizing i with
  | zero => exact h
  | succ k ih => rw [iterP]; exact ih _ (pstep_lt p hIn i h)

theorem pstep_getD (p : List Int) (hIn : InRange p) (i : Nat) (h : i < p.length) :
    p.getD i 0 = (pstep p i : Int) := by
  have h2 := hIn i h
  unfold pstep
  rw [if_pos h]
  omega

/-- Pigeonhole: the minimal number of steps to the representative is below
the vector length. -/
theorem find_lt_length (p : List Int) (hIn : InRange p) (i : Nat) (hi : i < p.length)
    (h : Reach p i) : Nat.find h < p.length := by
  set k := Nat.find h with hk
  by_contra hcon
  push_neg at hcon
  have hinj : Function.Injective (fun t : Fin (k + 1) => (⟨iterP p t i, iterP_lt p hIn t i hi⟩ : Fin p.length)) := by
    intro a b hab
    simp only [Fin.mk.injEq] at hab
    by_contra hne
    rcases lt_or_ge a.1 b.1 with hlt | hge
    · have hb : (b : Nat) ≤ k := Nat.lt_succ_iff.mp b.2
      have : isRootN p (iterP p ((a : Nat) + (k - b)) i) := by
        rw [iterP_add, hab, ← iterP_add]
        have : (b : Nat) + (k - b) = k := by omega
        rw [this]
        exact Nat.find_spec h
      exact Nat.find_min h (by omega) this
    · have hne2 : (b : Nat) < (a : Nat) := by
        rcases lt_or_ge b.1 a.1 with h1 | h1
        · exact h1
        · exact absurd (Fin.ext (by omega)) hne
      have ha : (a : Nat) ≤ k := Nat.lt_succ_iff.mp a.2
      have : isRootN p (iterP p ((b : Nat) + (k - a)) i) := by
        rw [iterP_add, ← hab, ← iterP_add]
        have : (a : Nat) + (k - a) = k := by omega
        rw [this]
        exact Nat.find_spec h
      exact Nat.find_min h (by omega) this
  have := Fintype.card_le_of_injective _ hinj
  simp only [Fintype.card_fin] at this
  omega

/-- If some iterate of `i` is a representative, it is the canonical one. -/
theorem rootOf_unique (p : List Int) (hIn : InRange p) (i : Nat) (hi : i < p.length)
    (k : Nat) (hk : isRootN p (iterP p k i)) : rootOf p i = iterP p k i := by
  have hreach : Reach p i := ⟨k, hk⟩
  have hfind := Nat.find_spec hreach
  have hflt := find_lt_length p hIn i hi hreach
  have h1 : iterP p k i = iterP p (Nat.find hreach) i := by
    rcases le_or_lt (Nat.find hreach) k with hle | hlt
    · have : k = Nat.find hreach + (k - Nat.find hreach) := by omega
      rw [this, iterP_add, isRootN_iterP p _ hfind]
    · exact absurd hk (Nat.find_min hreach hlt)
  have h2 : rootOf p i = iterP p (Nat.find hreach) i := by
    unfold rootOf
    have : p.length = Nat.find hreach + (p.length - Nat.find hreach) := by omega
    rw [this, iterP_add, isRootN_iterP p _ hfind]
  rw [h1, h2]

theorem rootOf_isRoot (p : List Int) (hIn : InRange p) (i : Nat) (hi : i < p.length)
    (h : Reach p i) : isRootN p (rootOf p i) := by
  obtain ⟨k, hk⟩ := h
  rw [rootOf_unique p hIn i hi k hk]
  exact hk

theorem rootOf_of_isRootN (p : List Int) (i : Nat) (h : isRootN p i) :
    rootOf p i = i := isRootN_iterP p i h p.length

theorem rootOf_lt (p : List Int) (hIn : InRange p) (i : Nat) (hi : i < p.length) :
    rootOf p i < p.length := iterP_lt p hIn p.length i hi

theorem WFp.reach (hWF : WFp p) (i : Nat) (hi : i < p.length) : Reach p i := by
  exact ⟨p.length, hWF.2 i hi⟩

theorem rootOf_pstep (p : List Int) (hWF : WFp p) (i : Nat) (hi : i < p.length) :
    rootOf p (pstep p i) = rootOf p i := by
  have hroot : isRootN p (rootOf p i) := hWF.2 i hi
  have h1 : iterP p p.length (pstep p i) = iterP p (p.length + 1) i := by
    rw [Nat.add_comm, iterP_add]; rfl
  unfold rootOf
  rw [h1, iterP_succ_out]
  exact hroot

theorem rootOf_iterP (p : List Int) (hWF : WFp p) (i : Nat) (hi : i < p.length) (t : Nat) :
    rootOf p (iterP p t i) = rootOf p i := by
  induction t generalizing i with
  | zero => rfl
  | succ t ih =>
    rw [iterP]
    rw [ih (pstep p i) (pstep_lt p hWF.1 i hi)]
    exact rootOf_pstep p hWF i hi

theorem isRootN_iff_rootOf_eq (p : List Int) (hWF : WFp p) (i : Nat) (hi : i < p.length) :
    isRootN p i ↔ rootOf p i = i := by
  constructor
  · exact rootOf_of_isRootN p i
  · intro h
    have := hWF.2 i hi
    rwa [h] at this

/-- A nontrivial parent cycle forces a self-loop: on well-formed states, the
only cycles are the roots' self-loops. -/
theorem cycle_isRoot (p : List Int) (hWF : WFp p) (i : Nat) (hi : i < p.length)
    (k : Nat) (hk : 0 < k) (hcyc : iterP p k i = i) : isRootN p i := by
  have hper : ∀ j, iterP p (j * k) i = i := by
    intro j
    induction j with
    | zero => rw [Nat.zero_mul]; rfl
    | succ j ih => rw [Nat.succ_mul, iterP_add, ih, hcyc]
  have hreach : Reach p i := hWF.reach i hi
  set f := Nat.find hreach with hf
  have hroot : isRootN p (iterP p f i) := Nat.find_spec hreach
  have hbig : f ≤ f * k := Nat.le_mul_of_pos_right f hk
  have : iterP p (f * k) i = iterP p (f * k - f) (iterP p f i) := by
    rw [← iterP_add]
    congr 1
    omega
  rw [hper f, isRootN_iterP p _ hroot] at this
  rw [this]
  exact hroot

theorem pstep_congr (p p2 : List Int) (hlen : p2.length = p.length) (j : Nat)
    (h : p2.getD j 0 = p.getD j 0) : pstep p2 j = pstep p j := by
  unfold pstep
  rw [hlen, h]

theorem pstep_cast (p2 : List Int) (j r : Nat) (hj : j < p2.length)
    (h : p2.getD j 0 = (r : Int)) : pstep p2 j = r := by
  unfold pstep
  rw [if_pos hj, h, Int.toNat_natCast]

/-! ### Correctness of `findUp` (with full path compression) -/

theorem findUpAux_ok (p : List Int) (hIn : InRange p) :
    ∀ (k i : Nat), i < p.length →
    isRootN p (iterP p k i) → (∀ t, t < k → ¬ isRootN p (iterP p t i)) →
    ∀ fuel, k < fuel →
    ∃ p2, findUpAux fuel p (i : Int) = .ok ((iterP p k i : Int), p2) ∧
      p2.length = p.length ∧
      (∀ j, j < p.length → (∃ t, t < k ∧ iterP p t i = j) →
        p2.getD j 0 = (iterP p k i : Int)) ∧
      (∀ j, j < p.length → (∀ t, t < k → iterP p t i ≠ j) →
        p2.getD j 0 = p.getD j 0) := by
  intro k
  induction k with
  | zero =>
    intro i hi hroot _ fuel hfuel
    obtain ⟨f, rfl⟩ : ∃ f, fuel = f + 1 := ⟨fuel - 1, by omega⟩
    refine ⟨p, ?_, rfl, ?_, ?_⟩
    · show Res.bind (readVec p (i : Int)) _ = _
      rw [readVec_natCast p i hi]
      show (if (i : Int) = p.getD i 0 then _ else _) = _
      rw [pstep_getD p hIn i hi]
      have : (i : Int) = ((pstep p i : Nat) : Int) := by
        have : pstep p i = i := hroot
        rw [this]
      rw [if_pos this]
      rfl
    · intro j _ ⟨t, ht, _⟩
      omega
    · intro j _ _
      rfl
  | succ k ih =>
    intro i hi hroot hmin fuel hfuel
    obtain ⟨f, rfl⟩ : ∃ f, fuel = f + 1 := ⟨fuel - 1, by omega⟩
    have hnr : ¬ isRootN p i := hmin 0 (by omega)
    have hi2 : pstep p i < p.length := pstep_lt p hIn i hi
    have hiter2 : ∀ t, iterP p t (pstep p i) = iterP p (t + 1) i := fun t => rfl
    have hroot2 : isRootN p (iterP p k (pstep p i)) := by rw [hiter2]; exact hroot
    have hmin2 : ∀ t, t < k → ¬ isRootN p (iterP p t (pstep p i)) := by
      intro t ht
      rw [hiter2]
      exact hmin (t + 1) (by omega)
    obtain ⟨p1, heq1, hlen1, hset1, hkeep1⟩ :=
      ih (pstep p i) hi2 hroot2 hmin2 f (by omega)
    have hne : ¬ ((i : Int) = p.getD i 0) := by
      rw [pstep_getD p hIn i hi]
      intro hcon
      exact hnr (by simpa [isRootN] using (Int.natCast_inj.mp hcon).symm)
    have hwrite : writeVec p1 (i : Int) ((iterP p k (pstep p i) : Nat) : Int) =
        .ok (p1.set i ((iterP p k (pstep p i) : Nat) : Int)) :=
      writeVec_natCast p1 i _ (by rw [hlen1]; exact hi)
    refine ⟨p1.set i ((iterP p k (pstep p i) : Nat) : Int), ?_, ?_, ?_, ?_⟩
    · show Res.bind (readVec p (i : Int)) _ = _
      rw [readVec_natCast p i hi]
      show (if (i : Int) = p.getD i 0 then _ else _) = _
      rw [if_neg hne]
      show Res.bind (findUpAux f p (p.getD i 0)) _ = _
      rw [pstep_getD p hIn i hi, heq1]
      show Res.bind (writeVec p1 (i : Int) _) _ = _
      rw [hwrite]
      rfl
    · rw [List.length_set, hlen1]
    · rintro j hj ⟨t, ht, hit⟩
      rw [getD_set]
      by_cases hji : j = i
      · rw [if_pos ⟨hji, by rw [hlen1]; exact hj⟩]
        rfl
      · rw [if_neg (by tauto)]
        refine hset1 j (by rw [← hlen1] at hj; rwa [hlen1] at hj) ?_
        obtain ⟨t2, rfl⟩ : ∃ t2, t = t2 + 1 := by
          rcases t with _ | t2
          · exact absurd hit.symm (by simpa [iterP] using hji)
          · exact ⟨t2, rfl⟩
        exact ⟨t2, by omega, by rw [hiter2]; exact hit⟩
    · intro j hj hno
      have hji : j ≠ i := by
        intro hcon
        exact hno 0 (by omega) (by simpa [iterP] using hcon.symm)
      rw [getD_set, if_neg (by tauto)]
      refine hkeep1 j hj ?_
      intro t ht
      rw [hiter2]
      exact hno (t + 1) (by omega)

theorem findUpP_ok (p : List Int) (hWF : WFp p) (i : Nat) (hi : i < p.length) :
    ∃ p2, findUpP p (i : Int) = .ok ((rootOf p i : Int), p2) ∧
      Compat p p2 ∧
      (∀ t, p2.getD (iterP p t i) 0 = (rootOf p i : Int)) := by
  have hreach : Reach p i := hWF.reach i hi
  have hroot := Nat.find_spec hreach
  have hflt := find_lt_length p hWF.1 i hi hreach
  obtain ⟨p2, heq, hlen, hset, hkeep⟩ :=
    findUpAux_ok p hWF.1 (Nat.find hreach) i hi hroot (fun t ht => Nat.find_min hreach ht)
      (p.length + 1) (by omega)
  have hru : rootOf p i = iterP p (Nat.find hreach) i :=
    rootOf_unique p hWF.1 i hi (Nat.find hreach) hroot
  refine ⟨p2, by rw [hru]; exact heq, ⟨hlen, ?_⟩, ?_⟩
  · intro j hj
    by_cases hpath : ∃ t, t < Nat.find hreach ∧ iterP p t i = j
    · right
      obtain ⟨t, ht, rfl⟩ := hpath
      rw [hset _ hj ⟨t, ht, rfl⟩, rootOf_iterP p hWF i hi t, hru]
    · left
      push_neg at hpath
      exact hkeep j hj (fun t ht => hpath t ht)
  · intro t
    have hjt : iterP p t i < p.length := iterP_lt p hWF.1 t i hi
    by_cases htk : t < Nat.find hreach
    · rw [hset _ hjt ⟨t, htk, rfl⟩, hru]
    · push_neg at htk
      have habs : iterP p t i = rootOf p i := by
        rw [hru]
        have h2 : t = Nat.find hreach + (t - Nat.find hreach) := by omega
        rw [h2, iterP_add, isRootN_iterP p _ hroot]
      have hrootlt : rootOf p i < p.length := rootOf_lt p hWF.1 i hi
      have hnopath : ∀ s, s < Nat.find hreach → iterP p s i ≠ iterP p t i := by
        intro s hs hcon
        refine Nat.find_min hreach hs ?_
        rw [hcon, habs]
        exact hWF.2 i hi
      have hval : p.getD (rootOf p i) 0 = (rootOf p i : Int) := by
        rw [pstep_getD p hWF.1 _ hrootlt, hWF.2 i hi]
      rw [hkeep (iterP p t i) hjt hnopath, habs, hval]

theorem Compat.inRange (p p2 : List Int) (hIn : InRange p) (hc : Compat p p2) :
    InRange p2 := by
  intro j hj
  rw [hc.1] at hj ⊢
  rcases hc.2 j hj with h | h
  · rw [h]; exact hIn j hj
  · rw [h]
    constructor
    · exact Int.natCast_nonneg _
    · exact_mod_cast rootOf_lt p hIn j hj

theorem compat_rootOf (p p2 : List Int) (hWF : WFp p) (hc : Compat p p2) :
    WFp p2 ∧ ∀ j, j < p.length → rootOf p2 j = rootOf p j := by
  have hIn2 : InRange p2 := Compat.inRange p p2 hWF.1 hc
  have hlen := hc.1
  have key : ∀ k j, j < p.length → isRootN p (iterP p k j) →
      (∀ t, t < k → ¬ isRootN p (iterP p t j)) →
      rootOf p2 j = rootOf p j ∧ isRootN p2 (rootOf p2 j) := by
    intro k
    induction k using Nat.strong_induction_on with
    | _ k ih =>
      intro j hj hroot hmin
      rcases Nat.eq_zero_or_pos k with rfl | hk
      · have hr : isRootN p j := hroot
        have hr2 : isRootN p2 j := by
          rcases hc.2 j hj with h | h
          · exact (pstep_congr p p2 hlen j h).trans hr
          · rw [rootOf_of_isRootN p j hr] at h
            exact pstep_cast p2 j j (by rw [hlen]; exact hj) h
        rw [rootOf_of_isRootN p2 j hr2, rootOf_of_isRootN p j hr]
        exact ⟨rfl, hr2⟩
      · have hnr : ¬ isRootN p j := by
          have := hmin 0 hk
          simpa [iterP] using this
        rcases hc.2 j hj with h | h
        · have hstep : pstep p2 j = pstep p j := pstep_congr p p2 hlen j h
          have hj2 : pstep p j < p.length := pstep_lt p hWF.1 j hj
          obtain ⟨k2, rfl⟩ : ∃ k2, k = k2 + 1 := ⟨k - 1, by omega⟩
          have hroot2 : isRootN p (iterP p k2 (pstep p j)) := hroot
          have hmin2 : ∀ t, t < k2 → ¬ isRootN p (iterP p t (pstep p j)) :=
            fun t ht => hmin (t + 1) (by omega)
          obtain ⟨e1, e2⟩ := ih k2 (by omega) (pstep p j) hj2 hroot2 hmin2
          have hstep2 : rootOf p2 j = rootOf p2 (pstep p j) := by
            have hr2 : isRootN p2 (iterP p2 (p2.length + 1) j) := by
              have : iterP p2 (p2.length + 1) j = iterP p2 p2.length (pstep p2 j) := rfl
              rw [this, hstep]
              exact e2
            rw [rootOf_unique p2 hIn2 j (by rw [hlen]; exact hj) (p2.length + 1) hr2]
            show iterP p2 p2.length (pstep p2 j) = _
            rw [hstep]
            rfl
          rw [hstep2, e1, rootOf_pstep p hWF j hj]
          refine ⟨rfl, ?_⟩
          rw [← rootOf_pstep p hWF j hj, ← e1]
          exact e2
        · have hrj : isRootN p (rootOf p j) := hWF.2 j hj
          have hrlt : rootOf p j < p.length := rootOf_lt p hWF.1 j hj
          have hstep : pstep p2 j = rootOf p j :=
            pstep_cast p2 j _ (by rw [hlen]; exact hj) h
          have hr2 : isRootN p2 (rootOf p j) := by
            rcases hc.2 (rootOf p j) hrlt with h2 | h2
            · exact (pstep_congr p p2 hlen _ h2).trans hrj
            · rw [rootOf_of_isRootN p _ hrj] at h2
              exact pstep_cast p2 _ _ (by rw [hlen]; exact hrlt) h2
          have h1 : iterP p2 1 j = rootOf p j := hstep
          have : rootOf p2 j = rootOf p j := by
            rw [rootOf_unique p2 hIn2 j (by rw [hlen]; exact hj) 1 (by rw [h1]; exact hr2)]
            exact h1
          rw [this]
          exact ⟨rfl, hr2⟩
  constructor
  · refine ⟨hIn2, ?_⟩
    intro j hj
    rw [hlen] at hj
    have hreach := hWF.reach j hj
    exact (key (Nat.find hreach) j hj (Nat.find_spec hreach)
      (fun t ht => Nat.find_min hreach ht)).2
  · intro j hj
    have hreach := hWF.reach j hj
    exact (key (Nat.find hreach) j hj (Nat.find_spec hreach)
      (fun t ht => Nat.find_min hreach ht)).1

/-! ### Linking one representative under another -/

theorem link_spec (p : List Int) (hWF : WFp p) (a b : Nat) (ha : a < p.length)
    (hb : b < p.length) (hra : isRootN p a) (hrb : isRootN p b) (hab : a ≠ b) :
    WFp (p.set a (b : Int)) ∧
      ∀ j, j < p.length → rootOf (p.set a (b : Int)) j =
        if rootOf p j = a then b else rootOf p j := by
  set p2 := p.set a (b : Int) with hp2
  have hlen : p2.length = p.length := by rw [hp2, List.length_set]
  have hgetD : ∀ j, j < p.length →
      p2.getD j 0 = if j = a then (b : Int) else p.getD j 0 := by
    intro j hj
    rw [hp2, getD_set]
    by_cases hja : j = a
    · rw [if_pos ⟨hja, hj⟩, if_pos hja]
    · rw [if_neg (by tauto), if_neg hja]
  have hIn2 : InRange p2 := by
    intro j hj
    rw [hlen] at hj ⊢
    rw [hgetD j hj]
    by_cases hja : j = a
    · rw [if_pos hja]
      exact ⟨Int.natCast_nonneg b, by exact_mod_cast hb⟩
    · rw [if_neg hja]
      exact hWF.1 j hj
  have hrb2 : isRootN p2 b :=
    (pstep_congr p p2 hlen b (by rw [hgetD b hb, if_neg (Ne.symm hab)])).trans hrb
  have key : ∀ k j, j < p.length → isRootN p (iterP p k j) →
      (∀ t, t < k → ¬ isRootN p (iterP p t j)) →
      (rootOf p2 j = if rootOf p j = a then b else rootOf p j) ∧
        isRootN p2 (rootOf p2 j) := by
    intro k
    induction k using Nat.strong_induction_on with
    | _ k ih =>
      intro j hj hroot hmin
      rcases Nat.eq_zero_or_pos k with rfl | hk
      · have hr : isRootN p j := hroot
        have hrj : rootOf p j = j := rootOf_of_isRootN p j hr
        by_cases hja : j = a
        · subst hja
          have hstep : pstep p2 j = b :=
            pstep_cast p2 j b (by rw [hlen]; exact hj) (by rw [hgetD j hj, if_pos rfl])
          have h1 : iterP p2 1 j = b := hstep
          have : rootOf p2 j = b := by
            rw [rootOf_unique p2 hIn2 j (by rw [hlen]; exact hj) 1 (by rw [h1]; exact hrb2)]
            exact h1
          rw [this, hrj, if_pos rfl]
          exact ⟨rfl, hrb2⟩
        · have hr2 : isRootN p2 j :=
            (pstep_congr p p2 hlen j (by rw [hgetD j hj, if_neg hja])).trans hr
          rw [rootOf_of_isRootN p2 j hr2, hrj, if_neg hja]
          exact ⟨rfl, hr2⟩
      · have hnr : ¬ isRootN p j := by
          have := hmin 0 hk
          simpa [iterP] using this
        have hja : j ≠ a := fun hcon => hnr (hcon ▸ hra)
        have hstep : pstep p2 j = pstep p j :=
          pstep_congr p p2 hlen j (by rw [hgetD j hj, if_neg hja])
        have hj2 : pstep p j < p.length := pstep_lt p hWF.1 j hj
        obtain ⟨k2, rfl⟩ : ∃ k2, k = k2 + 1 := ⟨k - 1, by omega⟩
        obtain ⟨e1, e2⟩ := ih k2 (by omega) (pstep p j) hj2 hroot
          (fun t ht => hmin (t + 1) (by omega))
        have hstep2 : rootOf p2 j = rootOf p2 (pstep p j) := by
          have hr2 : isRootN p2 (iterP p2 (p2.length + 1) j) := by
            have : iterP p2 (p2.length + 1) j = iterP p2 p2.length (pstep p2 j) := rfl
            rw [this, hstep]
            exact e2
          rw [rootOf_unique p2 hIn2 j (by rw [hlen]; exact hj) (p2.length + 1) hr2]
          show iterP p2 p2.length (pstep p2 j) = _
          rw [hstep]
          rfl
        have e3 : rootOf p2 j = if rootOf p j = a then b else rootOf p j := by
          rw [hstep2, e1, rootOf_pstep p hWF j hj]
        refine ⟨e3, ?_⟩
        rw [hstep2]
        exact e2
  constructor
  · refine ⟨hIn2, ?_⟩
    intro j hj
    rw [hlen] at hj
    have hreach := hWF.reach j hj
    exact (key (Nat.find hreach) j hj (Nat.find_spec hreach)
      (fun t ht => Nat.find_min hreach ht)).2
  · intro j hj
    have hreach := hWF.reach j hj
    exact (key (Nat.find hreach) j hj (Nat.find_spec hreach)
      (fun t ht => Nat.find_min hreach ht)).1

/-! ### Operation-level lemmas -/

theorem Compat.trans (p q r : List Int) (hWF : WFp p) (h1 : Compat p q) (h2 : Compat q r) :
    Compat p r := by
  obtain ⟨hWFq, hroots⟩ := compat_rootOf p q hWF h1
  refine ⟨h2.1.trans h1.1, ?_⟩
  intro j hj
  rcases h2.2 j (by rw [h1.1]; exact hj) with h | h
  · rcases h1.2 j hj with h3 | h3
    · exact Or.inl (h.trans h3)
    · exact Or.inr (h.trans h3)
  · right
    rw [h, hroots j hj]

theorem Compat.refl (p : List Int) : Compat p p :=
  ⟨rfl, fun _ _ => Or.inl rfl⟩

theorem rootOf_le (n : Nat) (st : DisjoinSet) (hInv : Inv n st) (x : Nat) (hx : x ≤ n) :
    rootOf st.parent x ≤ n := by
  have h := rootOf_lt st.parent hInv.2.2.2.1 x (by rw [hInv.2.1]; omega)
  rw [hInv.2.1] at h
  omega

theorem method_findUp_ok (n : Nat) (st : DisjoinSet) (hInv : Inv n st) (x : Nat) (hx : x ≤ n) :
    ∃ st2, st.findUp (x : Int) = .ok ((rootOf st.parent x : Int), st2) ∧
      Inv n st2 ∧ st2.rank = st.rank ∧ st2.size = st.size ∧
      Compat st.parent st2.parent ∧
      (∀ j, j ≤ n → rootOf st2.parent j = rootOf st.parent j) ∧
      (∀ t, st2.parent.getD (iterP st.parent t x) 0 = (rootOf st.parent x : Int)) := by
  obtain ⟨hlr, hlp, hls, hWF⟩ := hInv
  obtain ⟨p2, heq, hcomp, hpath⟩ := findUpP_ok st.parent hWF x (by omega)
  obtain ⟨hWF2, hroots⟩ := compat_rootOf st.parent p2 hWF hcomp
  refine ⟨{ st with parent := p2 }, ?_, ⟨hlr, by rw [hcomp.1]; exact hlp, hls, hWF2⟩,
    rfl, rfl, hcomp, ?_, hpath⟩
  · show Res.bind (findUpP st.parent (x : Int)) _ = _
    rw [heq]
    rfl
  · intro j hj
    exact hroots j (by omega)

@[simp] theorem Res.bind_ok {α β : Type} (a : α) (f : α → Res β) :
    Res.bind (.ok a) f = f a := rfl

@[simp] theorem Res.bind_err {α β : Type} (e : Err) (f : α → Res β) :
    Res.bind (.err e) f = .err e := rfl

@[simp] theorem Res.bind_fuelOut {α β : Type} (f : α → Res β) :
    Res.bind .fuelOut f = .fuelOut := rfl

/-- Case analysis for the representative map after attaching root `A` under
root `B`, where `{A, B} = {U, V}` are the two old representatives. -/
theorem union_root_map_iff (fx fy U V A B : Nat) (hUV : U ≠ V)
    (hAB : (A = U ∧ B = V) ∨ (A = V ∧ B = U)) :
    ((if fx = A then B else fx) = (if fy = A then B else fy)) ↔
      (fx = fy ∨ (fx = U ∧ V = fy) ∨ (fx = V ∧ U = fy)) := by
  rcases hAB with ⟨rfl, rfl⟩ | ⟨rfl, rfl⟩ <;> split_ifs <;> omega

theorem unionByRank_spec (n : Nat) (st : DisjoinSet) (hInv : Inv n st) (u v : Nat)
    (hu : u ≤ n) (hv : v ≤ n) :
    ∃ st2, st.unionByRank (u : Int) (v : Int) = .ok st2 ∧ Inv n st2 ∧
      st2.size = st.size ∧
      (∀ x y, x ≤ n → y ≤ n → (sameRootN st2 x y ↔ sameRootN st x y ∨
        (sameRootN st x u ∧ sameRootN st v y) ∨ (sameRootN st x v ∧ sameRootN st u y))) ∧
      (rootOf st.parent u = rootOf st.parent v →
        st2.rank = st.rank.set (rootOf st.parent v)
            (st.rank.getD (rootOf st.parent v) 0 + 1) ∧
        Compat st.parent st2.parent) := by
  obtain ⟨st1, heq1, hInv1, hr1, hs1, hc1, hroots1, _⟩ := method_findUp_ok n st hInv u hu
  obtain ⟨st2m, heq2, hInv2m, hr2, hs2, hc2, hroots2, _⟩ := method_findUp_ok n st1 hInv1 v hv
  rw [hroots1 v hv] at heq2
  have hroots20 : ∀ j, j ≤ n → rootOf st2m.parent j = rootOf st.parent j := fun j hj =>
    (hroots2 j hj).trans (hroots1 j hj)
  have hcomp : Compat st.parent st2m.parent :=
    Compat.trans _ _ _ hInv.2.2.2 hc1 hc2
  have hrank2m : st2m.rank = st.rank := hr2.trans hr1
  have hsize2m : st2m.size = st.size := hs2.trans hs1
  have hur_le : rootOf st.parent u ≤ n := rootOf_le n st hInv u hu
  have hvr_le : rootOf st.parent v ≤ n := rootOf_le n st hInv v hv
  have hWF2 : WFp st2m.parent := hInv2m.2.2.2
  have hlen2 : st2m.parent.length = n + 1 := hInv2m.2.1
  have hroot_of_root : ∀ w, w ≤ n →
      isRootN st2m.parent (rootOf st.parent w) := by
    intro w hw
    have hwr : rootOf st.parent w ≤ n := rootOf_le n st hInv w hw
    refine (isRootN_iff_rootOf_eq _ hWF2 _ (by omega)).mpr ?_
    rw [hroots20 _ hwr]
    exact rootOf_of_isRootN st.parent _ (hInv.2.2.2.2 w (by rw [hInv.2.1]; omega))
  have hread_ur : readVec st2m.rank ((rootOf st.parent u : Nat) : Int) =
      .ok (st.rank.getD (rootOf st.parent u) 0) := by
    rw [hrank2m]
    exact readVec_natCast _ _ (by rw [hInv.1]; omega)
  have hread_vr : readVec st2m.rank ((rootOf st.parent v : Nat) : Int) =
      .ok (st.rank.getD (rootOf st.parent v) 0) := by
    rw [hrank2m]
    exact readVec_natCast _ _ (by rw [hInv.1]; omega)
  have hwrite_uv : writeVec st2m.parent ((rootOf st.parent u : Nat) : Int)
      ((rootOf st.parent v : Nat) : Int) =
      .ok (st2m.parent.set (rootOf st.parent u) ((rootOf st.parent v : Nat) : Int)) :=
    writeVec_natCast _ _ _ (by omega)
  have hwrite_vu : writeVec st2m.parent ((rootOf st.parent v : Nat) : Int)
      ((rootOf st.parent u : Nat) : Int) =
      .ok (st2m.parent.set (rootOf st.parent v) ((rootOf st.parent u : Nat) : Int)) :=
    writeVec_natCast _ _ _ (by omega)
  unfold DisjoinSet.unionByRank
  rw [heq1]
  simp only [Res.bind_ok]
  rw [heq2]
  simp only [Res.bind_ok]
  rw [hread_ur]
  simp only [Res.bind_ok]
  rw [hread_vr]
  simp only [Res.bind_ok]
  by_cases hlt : st.rank.getD (rootOf st.parent u) 0 < st.rank.getD (rootOf st.parent v) 0
  · -- rank[u_up] < rank[v_up]: attach u's root under v's root
    have hne : rootOf st.parent u ≠ rootOf st.parent v := by
      intro hcon
      rw [hcon] at hlt
      exact lt_irrefl _ hlt
    rw [if_pos hlt, hwrite_uv]
    simp only [Res.bind_ok]
    obtain ⟨hWF3, hmap⟩ := link_spec st2m.parent hWF2 (rootOf st.parent u)
      (rootOf st.parent v) (by omega) (by omega) (hroot_of_root u hu) (hroot_of_root v hv)
      hne
    refine ⟨_, rfl, ⟨by rw [hrank2m, hInv.1], by rw [List.length_set]; exact hlen2,
      by rw [hsize2m, hInv.2.2.1], hWF3⟩, hsize2m, ?_, fun hcon => absurd hcon hne⟩
    intro x y hx hy
    show rootOf _ x = rootOf _ y ↔ _
    rw [hmap x (by omega), hmap y (by omega), hroots20 x hx, hroots20 y hy]
    exact union_root_map_iff _ _ _ _ _ _ hne (Or.inl ⟨rfl, rfl⟩)
  · rw [if_neg hlt]
    by_cases hgt : st.rank.getD (rootOf st.parent v) 0 < st.rank.getD (rootOf st.parent u) 0
    · -- rank[u_up] > rank[v_up]: attach v's root under u's root
      have hne : rootOf st.parent u ≠ rootOf st.parent v := by
        intro hcon
        rw [hcon] at hgt
        exact lt_irrefl _ hgt
      rw [if_pos hgt, hwrite_vu]
      simp only [Res.bind_ok]
      obtain ⟨hWF3, hmap⟩ := link_spec st2m.parent hWF2 (rootOf st.parent v)
        (rootOf st.parent u) (by omega) (by omega) (hroot_of_root v hv) (hroot_of_root u hu)
        (Ne.symm hne)
      refine ⟨_, rfl, ⟨by rw [hrank2m, hInv.1], by rw [List.length_set]; exact hlen2,
        by rw [hsize2m, hInv.2.2.1], hWF3⟩, hsize2m, ?_, fun hcon => absurd hcon hne⟩
      intro x y hx hy
      show rootOf _ x = rootOf _ y ↔ _
      rw [hmap x (by omega), hmap y (by omega), hroots20 x hx, hroots20 y hy]
      exact union_root_map_iff _ _ _ _ _ _ hne (Or.inr ⟨rfl, rfl⟩)
    · -- equal ranks: parent[u_up] = v_up and rank[v_up]++
      rw [if_neg hgt, hwrite_uv]
      simp only [Res.bind_ok]
      have hwrite_rank : writeVec st2m.rank ((rootOf st.parent v : Nat) : Int)
          (st.rank.getD (rootOf st.parent v) 0 + 1) =
          .ok (st.rank.set (rootOf st.parent v)
            (st.rank.getD (rootOf st.parent v) 0 + 1)) := by
        rw [hrank2m]
        exact writeVec_natCast _ _ _ (by rw [hInv.1]; omega)
      rw [hwrite_rank]
      simp only [Res.bind_ok]
      by_cases hne : rootOf st.parent u = rootOf st.parent v
      · -- redundant union: the parent write is a self-assignment
        have hself : st2m.parent.set (rootOf st.parent u) ((rootOf st.parent v : Nat) : Int)
            = st2m.parent := by
          have hval : ((rootOf st.parent v : Nat) : Int) =
              st2m.parent.getD (rootOf st.parent u) 0 := by
            rw [pstep_getD st2m.parent hWF2.1 _ (by omega), hroot_of_root u hu, hne]
          rw [hval, set_getD_self]
        rw [hself]
        refine ⟨_, rfl, ⟨by rw [List.length_set]; exact hInv.1, hlen2,
          by rw [hsize2m, hInv.2.2.1], hWF2⟩, hsize2m, ?_, fun _ => ⟨rfl, hcomp⟩⟩
        intro x y hx hy
        show rootOf _ x = rootOf _ y ↔ _
        rw [hroots20 x hx, hroots20 y hy]
        have h1 : rootOf st.parent u = rootOf st.parent v := hne
        simp only [sameRootN]
        omega
      · -- distinct roots with equal ranks: attach u's root under v's root
        obtain ⟨hWF3, hmap⟩ := link_spec st2m.parent hWF2 (rootOf st.parent u)
          (rootOf st.parent v) (by omega) (by omega) (hroot_of_root u hu) (hroot_of_root v hv)
          hne
        refine ⟨_, rfl, ⟨by rw [List.length_set]; exact hInv.1,
          by rw [List.length_set]; exact hlen2, by rw [hsize2m, hInv.2.2.1], hWF3⟩,
          hsize2m, ?_, fun hcon => absurd hcon hne⟩
        intro x y hx hy
        show rootOf _ x = rootOf _ y ↔ _
        rw [hmap x (by omega), hmap y (by omega), hroots20 x hx, hroots20 y hy]
        exact union_root_map_iff _ _ _ _ _ _ hne (Or.inl ⟨rfl, rfl⟩)

theorem unionBySize_spec (n : Nat) (st : DisjoinSet) (hInv : Inv n st) (u v : Nat)
    (hu : u ≤ n) (hv : v ≤ n) :
    ∃ st2, st.unionBySize (u : Int) (v : Int) = .ok st2 ∧ Inv n st2 ∧
      st2.rank = st.rank ∧
      (∀ x y, x ≤ n → y ≤ n → (sameRootN st2 x y ↔ sameRootN st x y ∨
        (sameRootN st x u ∧ sameRootN st v y) ∨ (sameRootN st x v ∧ sameRootN st u y))) ∧
      (rootOf st.parent u = rootOf st.parent v →
        st2.size = st.size.set (rootOf st.parent u)
            (st.size.getD (rootOf st.parent u) 0 + st.size.getD (rootOf st.parent u) 0) ∧
        Compat st.parent st2.parent) ∧
      (rootOf st.parent u ≠ rootOf st.parent v →
        (rootOf st.parent u < rootOf st.parent v →
          st2.size = st.size.set (rootOf st.parent v)
              (st.size.getD (rootOf st.parent v) 0 + st.size.getD (rootOf st.parent u) 0) ∧
          st2.parent.getD (rootOf st.parent u) 0 = ((rootOf st.parent v : Nat) : Int) ∧
          (∀ j, j ≤ n → rootOf st2.parent j =
            if rootOf st.parent j = rootOf st.parent u then rootOf st.parent v
            else rootOf st.parent j)) ∧
        (rootOf st.parent v < rootOf st.parent u →
          st2.size = st.size.set (rootOf st.parent u)
              (st.size.getD (rootOf st.parent u) 0 + st.size.getD (rootOf st.parent v) 0) ∧
          st2.parent.getD (rootOf st.parent v) 0 = ((rootOf st.parent u : Nat) : Int) ∧
          (∀ j, j ≤ n → rootOf st2.parent j =
            if rootOf st.parent j = rootOf st.parent v then rootOf st.parent u
            else rootOf st.parent j))) := by
  obtain ⟨st1, heq1, hInv1, hr1, hs1, hc1, hroots1, _⟩ := method_findUp_ok n st hInv u hu
  obtain ⟨st2m, heq2, hInv2m, hr2, hs2, hc2, hroots2, _⟩ := method_findUp_ok n st1 hInv1 v hv
  rw [hroots1 v hv] at heq2
  have hroots20 : ∀ j, j ≤ n → rootOf st2m.parent j = rootOf st.parent j := fun j hj =>
    (hroots2 j hj).trans (hroots1 j hj)
  have hcomp : Compat st.parent st2m.parent :=
    Compat.trans _ _ _ hInv.2.2.2 hc1 hc2
  have hrank2m : st2m.rank = st.rank := hr2.trans hr1
  have hsize2m : st2m.size = st.size := hs2.trans hs1
  have hur_le : rootOf st.parent u ≤ n := rootOf_le n st hInv u hu
  have hvr_le : rootOf st.parent v ≤ n := rootOf_le n st hInv v hv
  have hWF2 : WFp st2m.parent := hInv2m.2.2.2
  have hlen2 : st2m.parent.length = n + 1 := hInv2m.2.1
  have hroot_of_root : ∀ w, w ≤ n →
      isRootN st2m.parent (rootOf st.parent w) := by
    intro w hw
    have hwr : rootOf st.parent w ≤ n := rootOf_le n st hInv w hw
    refine (isRootN_iff_rootOf_eq _ hWF2 _ (by omega)).mpr ?_
    rw [hroots20 _ hwr]
    exact rootOf_of_isRootN st.parent _ (hInv.2.2.2.2 w (by rw [hInv.2.1]; omega))
  have hread_su : readVec st2m.size ((rootOf st.parent u : Nat) : Int) =
      .ok (st.size.getD (rootOf st.parent u) 0) := by
    rw [hsize2m]
    exact readVec_natCast _ _ (by rw [hInv.2.2.1]; omega)
  have hread_sv : readVec st2m.size ((rootOf st.parent v : Nat) : Int) =
      .ok (st.size.getD (rootOf st.parent v) 0) := by
    rw [hsize2m]
    exact readVec_natCast _ _ (by rw [hInv.2.2.1]; omega)
  have hwrite_uv : writeVec st2m.parent ((rootOf st.parent u : Nat) : Int)
      ((rootOf st.parent v : Nat) : Int) =
      .ok (st2m.parent.set (rootOf st.parent u) ((rootOf st.parent v : Nat) : Int)) :=
    writeVec_natCast _ _ _ (by omega)
  have hwrite_vu : writeVec st2m.parent ((rootOf st.parent v : Nat) : Int)
      ((rootOf st.parent u : Nat) : Int) =
      .ok (st2m.parent.set (rootOf st.parent v) ((rootOf st.parent u : Nat) : Int)) :=
    writeVec_natCast _ _ _ (by omega)
  unfold DisjoinSet.unionBySize
  rw [heq1]
  simp only [Res.bind_ok]
  rw [heq2]
  simp only [Res.bind_ok]
  by_cases hlt : rootOf st.parent u < rootOf st.parent v
  · -- u's root has the smaller index: it is attached under v's root
    have hne : rootOf st.parent u ≠ rootOf st.parent v := by omega
    rw [if_pos (by exact_mod_cast hlt), hwrite_uv]
    simp only [Res.bind_ok]
    rw [hread_sv]
    simp only [Res.bind_ok]
    rw [hread_su]
    simp only [Res.bind_ok]
    have hwrite_size : writeVec st2m.size ((rootOf st.parent v : Nat) : Int)
        (st.size.getD (rootOf st.parent v) 0 + st.size.getD (rootOf st.parent u) 0) =
        .ok (st.size.set (rootOf st.parent v)
          (st.size.getD (rootOf st.parent v) 0 + st.size.getD (rootOf st.parent u) 0)) := by
      rw [hsize2m]
      exact writeVec_natCast _ _ _ (by rw [hInv.2.2.1]; omega)
    rw [hwrite_size]
    simp only [Res.bind_ok]
    obtain ⟨hWF3, hmap⟩ := link_spec st2m.parent hWF2 (rootOf st.parent u)
      (rootOf st.parent v) (by omega) (by omega) (hroot_of_root u hu) (hroot_of_root v hv)
      hne
    have hmap0 : ∀ j, j ≤ n →
        rootOf (st2m.parent.set (rootOf st.parent u) ((rootOf st.parent v : Nat) : Int)) j =
        if rootOf st.parent j = rootOf st.parent u then rootOf st.parent v
        else rootOf st.parent j := by
      intro j hj
      rw [hmap j (by omega), hroots20 j hj]
    refine ⟨_, rfl, ⟨by rw [hrank2m]; exact hInv.1, by rw [List.length_set]; exact hlen2,
      by rw [List.length_set, hInv.2.2.1], hWF3⟩, hrank2m, ?_,
      fun hcon => absurd hcon hne, fun _ => ⟨fun _ => ⟨rfl, ?_, hmap0⟩, fun hcon => by omega⟩⟩
    · intro x y hx hy
      show rootOf _ x = rootOf _ y ↔ _
      rw [hmap x (by omega), hmap y (by omega), hroots20 x hx, hroots20 y hy]
      exact union_root_map_iff _ _ _ _ _ _ hne (Or.inl ⟨rfl, rfl⟩)
    · show List.getD _ _ _ = _
      rw [getD_set, if_pos ⟨rfl, by omega⟩]
  · rw [if_neg (by exact_mod_cast hlt), hwrite_vu]
    simp only [Res.bind_ok]
    rw [hread_su]
    simp only [Res.bind_ok]
    rw [hread_sv]
    simp only [Res.bind_ok]
    have hwrite_size : writeVec st2m.size ((rootOf st.parent u : Nat) : Int)
        (st.size.getD (rootOf st.parent u) 0 + st.size.getD (rootOf st.parent v) 0) =
        .ok (st.size.set (rootOf st.parent u)
          (st.size.getD (rootOf st.parent u) 0 + st.size.getD (rootOf st.parent v) 0)) := by
      rw [hsize2m]
      exact writeVec_natCast _ _ _ (by rw [hInv.2.2.1]; omega)
    rw [hwrite_size]
    simp only [Res.bind_ok]
    by_cases hne : rootOf st.parent u = rootOf st.parent v
    · -- redundant union: self-assignment of the parent, size doubled
      have hself : st2m.parent.set (rootOf st.parent v) ((rootOf st.parent u : Nat) : Int)
          = st2m.parent := by
        have hval : ((rootOf st.parent u : Nat) : Int) =
            st2m.parent.getD (rootOf st.parent v) 0 := by
          rw [pstep_getD st2m.parent hWF2.1 _ (by omega), hroot_of_root v hv, hne]
        rw [hval, set_getD_self]
      rw [hself]
      refine ⟨_, rfl, ⟨by rw [hrank2m]; exact hInv.1, hlen2,
        by rw [List.length_set, hInv.2.2.1], hWF2⟩, hrank2m, ?_,
        fun _ => ⟨by rw [hne], hcomp⟩, fun hcon => absurd hne hcon⟩
      intro x y hx hy
      show rootOf _ x = rootOf _ y ↔ _
      rw [hroots20 x hx, hroots20 y hy]
      have h1 : rootOf st.parent u = rootOf st.parent v := hne
      simp only [sameRootN]
      omega
    · -- v's root has the smaller index: it is attached under u's root
      have hgt : rootOf st.parent v < rootOf st.parent u := by omega
      obtain ⟨hWF3, hmap⟩ := link_spec st2m.parent hWF2 (rootOf st.parent v)
        (rootOf st.parent u) (by omega) (by omega) (hroot_of_root v hv) (hroot_of_root u hu)
        (Ne.symm hne)
      have hmap0 : ∀ j, j ≤ n →
          rootOf (st2m.parent.set (rootOf st.parent v) ((rootOf st.parent u : Nat) : Int)) j =
          if rootOf st.parent j = rootOf st.parent v then rootOf st.parent u
          else rootOf st.parent j := by
        intro j hj
        rw [hmap j (by omega), hroots20 j hj]
      refine ⟨_, rfl, ⟨by rw [hrank2m]; exact hInv.1, by rw [List.length_set]; exact hlen2,
        by rw [List.length_set, hInv.2.2.1], hWF3⟩, hrank2m, ?_,
        fun hcon => absurd hcon hne, fun _ => ⟨fun hcon => by omega, fun _ => ⟨rfl, ?_, hmap0⟩⟩⟩
      · intro x y hx hy
        show rootOf _ x = rootOf _ y ↔ _
        rw [hmap x (by omega), hmap y (by omega), hroots20 x hx, hroots20 y hy]
        exact union_root_map_iff _ _ _ _ _ _ hne (Or.inr ⟨rfl, rfl⟩)
      · show List.getD _ _ _ = _
        rw [getD_set, if_pos ⟨rfl, by omega⟩]

theorem beq_natCast (r1 r2 : Nat) : (((r1 : Nat) : Int) == ((r2 : Nat) : Int)) = decide (r1 = r2) := by
  by_cases h : r1 = r2
  · subst h
    simp
  · rw [decide_eq_false h, beq_eq_false_iff_ne]
    exact_mod_cast h

theorem isComponent_spec (n : Nat) (st : DisjoinSet) (hInv : Inv n st) (x y : Nat)
    (hx : x ≤ n) (hy : y ≤ n) :
    ∃ st2, st.isComponent (x : Int) (y : Int) =
        .ok (decide (rootOf st.parent x = rootOf st.parent y), st2) ∧
      Inv n st2 ∧ st2.rank = st.rank ∧ st2.size = st.size ∧
      Compat st.parent st2.parent ∧
      (∀ j, j ≤ n → rootOf st2.parent j = rootOf st.parent j) := by
  obtain ⟨st1, heq1, hInv1, hr1, hs1, hc1, hroots1, _⟩ := method_findUp_ok n st hInv x hx
  obtain ⟨st2m, heq2, hInv2m, hr2, hs2, hc2, hroots2, _⟩ := method_findUp_ok n st1 hInv1 y hy
  rw [hroots1 y hy] at heq2
  refine ⟨st2m, ?_, hInv2m, hr2.trans hr1, hs2.trans hs1,
    Compat.trans _ _ _ hInv.2.2.2 hc1 hc2,
    fun j hj => (hroots2 j hj).trans (hroots1 j hj)⟩
  unfold DisjoinSet.isComponent
  rw [heq1]
  simp only [Res.bind_ok]
  rw [heq2]
  simp only [Res.bind_ok]
  rw [beq_natCast]

/-! ### The freshly constructed state -/

theorem initParent_length (m : Nat) : (initParent m).length = m := by
  have key : ∀ (l : List Nat) (init : List Int),
      (l.foldl (fun p i => p.set i (Int.ofNat i)) init).length = init.length := by
    intro l
    induction l with
    | nil => intro init; rfl
    | cons a l ih =>
      intro init
      show (l.foldl _ (init.set a (Int.ofNat a))).length = _
      rw [ih, List.length_set]
  unfold initParent
  rw [key, List.length_replicate]

theorem initParent_getD (m : Nat) (j : Nat) (hj : j < m) :
    (initParent m).getD j 0 = (j : Int) := by
  have key : ∀ k, k ≤ m → ∀ j, j < m →
      ((List.range k).foldl (fun p i => p.set i (Int.ofNat i))
          (List.replicate m 0)).getD j 0 = if j < k then (j : Int) else 0 := by
    intro k
    induction k with
    | zero =>
      intro _ j hj
      simp only [List.range_zero, List.foldl_nil, Nat.not_lt_zero, if_false]
      rw [List.getD_eq_getElem _ _ (by simpa using hj), List.getElem_replicate]
    | succ k ih =>
      intro hk j hj
      rw [List.range_succ, List.foldl_append]
      simp only [List.foldl_cons, List.foldl_nil]
      have hlen : ((List.range k).foldl (fun p i => p.set i (Int.ofNat i))
          (List.replicate m 0)).length = m := by
        have := initParent_length m
        have key2 : ∀ (l : List Nat) (init : List Int),
            (l.foldl (fun p i => p.set i (Int.ofNat i)) init).length = init.length := by
          intro l
          induction l with
          | nil => intro init; rfl
          | cons a l ih2 =>
            intro init
            show (l.foldl _ (init.set a (Int.ofNat a))).length = _
            rw [ih2, List.length_set]
        rw [key2, List.length_replicate]
      rw [getD_set]
      by_cases hjk : j = k
      · rw [if_pos ⟨hjk, by rw [hlen]; exact hj⟩, hjk, if_pos (by omega)]
        rfl
      · rw [if_neg (by tauto), ih (by omega) j hj]
        by_cases hlt : j < k
        · rw [if_pos hlt, if_pos (by omega)]
        · rw [if_neg hlt, if_neg (by omega)]
  have := key m (le_refl m) j hj
  rw [if_pos hj] at this
  exact this

theorem pstep_initParent (m : Nat) (j : Nat) : pstep (initParent m) j = j := by
  unfold pstep
  by_cases hj : j < (initParent m).length
  · rw [if_pos hj, initParent_getD m j (by rwa [initParent_length] at hj),
      Int.toNat_natCast]
  · rw [if_neg hj]

theorem iterP_initParent (m : Nat) (k j : Nat) : iterP (initParent m) k j = j := by
  induction k with
  | zero => rfl
  | succ k ih => rw [iterP_succ_out, ih, pstep_initParent]

theorem rootOf_initParent (m : Nat) (j : Nat) : rootOf (initParent m) j = j :=
  iterP_initParent m _ j

theorem create_natCast (n : Nat) :
    DisjoinSet.create (n : Int) = .ok (createdState n) := by
  unfold DisjoinSet.create
  rw [if_neg (by omega), show ((n : Int) + 1).toNat = n + 1 by omega]
  rfl

theorem Inv_createdState (n : Nat) : Inv n (createdState n) := by
  simp only [createdState]
  refine ⟨List.length_replicate _ _, initParent_length _, List.length_replicate _ _, ?_, ?_⟩
  · intro j hj
    rw [initParent_length] at hj
    rw [initParent_getD _ j hj]
    constructor
    · exact Int.natCast_nonneg j
    · rw [initParent_length]
      exact_mod_cast hj
  · intro j _
    show pstep _ _ = _
    rw [rootOf_initParent, pstep_initParent]

theorem sameRootN_createdState (n : Nat) (a b : Nat) :
    sameRootN (createdState n) a b ↔ a = b := by
  show rootOf (createdState n).parent a = rootOf (createdState n).parent b ↔ _
  simp only [createdState]
  rw [rootOf_initParent, rootOf_initParent]

/-! ### Ground-truth connectivity lemmas -/

theorem connectedIn_nil (a b : Int) : connectedIn [] a b ↔ a = b := by
  constructor
  · intro h
    induction h with
    | rel x y hxy => simp at hxy
    | refl x => rfl
    | symm x y _ ih => exact ih.symm
    | trans x y z _ _ ih1 ih2 => exact ih1.trans ih2
  · rintro rfl
    exact Relation.EqvGen.refl a

theorem connectedIn_append_pair (ps : List (Int × Int)) (u v a b : Int) :
    connectedIn (ps ++ [(u, v)]) a b ↔
      connectedIn ps a b ∨ (connectedIn ps a u ∧ connectedIn ps v b) ∨
        (connectedIn ps a v ∧ connectedIn ps u b) := by
  constructor
  · intro h
    induction h with
    | rel x y hxy =>
      rcases List.mem_append.mp hxy with hin | hin
      · exact Or.inl (Relation.EqvGen.rel x y hin)
      · have hxy2 : x = u ∧ y = v := by simpa using hin
        obtain ⟨rfl, rfl⟩ := hxy2
        exact Or.inr (Or.inl ⟨Relation.EqvGen.refl x, Relation.EqvGen.refl y⟩)
    | refl x => exact Or.inl (Relation.EqvGen.refl x)
    | symm x y _ ih =>
      rcases ih with h1 | ⟨h1, h2⟩ | ⟨h1, h2⟩
      · exact Or.inl (Relation.EqvGen.symm _ _ h1)
      · exact Or.inr (Or.inr ⟨Relation.EqvGen.symm _ _ h2, Relation.EqvGen.symm _ _ h1⟩)
      · exact Or.inr (Or.inl ⟨Relation.EqvGen.symm _ _ h2, Relation.EqvGen.symm _ _ h1⟩)
    | trans x y z _ _ ih1 ih2 =>
      rcases ih1 with A | ⟨A1, A2⟩ | ⟨A1, A2⟩ <;> rcases ih2 with B | ⟨B1, B2⟩ | ⟨B1, B2⟩
      · exact Or.inl (Relation.EqvGen.trans _ _ _ A B)
      · exact Or.inr (Or.inl ⟨Relation.EqvGen.trans _ _ _ A B1, B2⟩)
      · exact Or.inr (Or.inr ⟨Relation.EqvGen.trans _ _ _ A B1, B2⟩)
      · exact Or.inr (Or.inl ⟨A1, Relation.EqvGen.trans _ _ _ A2 B⟩)
      · exact Or.inr (Or.inl ⟨A1, B2⟩)
      · exact Or.inl (Relation.EqvGen.trans _ _ _ A1 B2)
      · exact Or.inr (Or.inr ⟨A1, Relation.EqvGen.trans _ _ _ A2 B⟩)
      · exact Or.inl (Relation.EqvGen.trans _ _ _ A1 B2)
      · exact Or.inr (Or.inr ⟨A1, B2⟩)
  · intro h
    have hmono : ∀ x y, connectedIn ps x y → connectedIn (ps ++ [(u, v)]) x y :=
      fun x y hh => Relation.EqvGen.mono (fun c d hcd => List.mem_append_left _ hcd) hh
    have hpair : connectedIn (ps ++ [(u, v)]) u v :=
      Relation.EqvGen.rel _ _ (List.mem_append_right _ (by simp))
    rcases h with h1 | ⟨h1, h2⟩ | ⟨h1, h2⟩
    · exact hmono _ _ h1
    · exact Relation.EqvGen.trans _ _ _
        (Relation.EqvGen.trans _ _ _ (hmono _ _ h1) hpair) (hmono _ _ h2)
    · exact Relation.EqvGen.trans _ _ _
        (Relation.EqvGen.trans _ _ _ (hmono _ _ h1) (Relation.EqvGen.symm _ _ hpair))
        (hmono _ _ h2)

/-! ### Executing call sequences -/

theorem inR_spec (n : Nat) (x : Int) (h : inR n x = true) :
    x = ((x.toNat : Nat) : Int) ∧ x.toNat ≤ n := by
  unfold inR at h
  simp only [Bool.and_eq_true, decide_eq_true_eq] at h
  omega

theorem opsPairs_nil : opsPairs [] = [] := rfl

theorem opsPairs_cons (op : Op) (ops : List Op) :
    opsPairs (op :: ops) = op.unionPairs ++ opsPairs ops := by
  simp [opsPairs]

theorem runOps_cons (st : DisjoinSet) (op : Op) (ops : List Op) :
    runOps st (op :: ops) = Res.bind (stepOp st op) fun st1 => runOps st1 ops := rfl

/-- Master lemma: executing any in-range call sequence from a well-formed
state succeeds, preserves the invariant, and the resulting same-set relation
is the ground-truth connectivity of the accumulated union pairs. -/
theorem runOps_master (n : Nat) : ∀ (ops : List Op) (st : DisjoinSet) (acc : List (Int × Int)),
    Inv n st →
    (∀ op ∈ ops, op.inRange n = true) →
    (∀ a b : Nat, a ≤ n → b ≤ n → (sameRootN st a b ↔ connectedIn acc (a : Int) (b : Int))) →
    ∃ st2, runOps st ops = .ok st2 ∧ Inv n st2 ∧
      (∀ a b : Nat, a ≤ n → b ≤ n →
        (sameRootN st2 a b ↔ connectedIn (acc ++ opsPairs ops) (a : Int) (b : Int))) := by
  intro ops
  induction ops with
  | nil =>
    intro st acc hInv _ hbase
    exact ⟨st, rfl, hInv, by simpa [opsPairs] using hbase⟩
  | cons op ops ih =>
    intro st acc hInv hops hbase
    have hop := hops op (List.mem_cons_self _ _)
    have hrest : ∀ o ∈ ops, o.inRange n = true := fun o ho => hops o (List.mem_cons_of_mem _ ho)
    cases op with
    | find x =>
      obtain ⟨hxeq, hxle⟩ := inR_spec n x hop
      obtain ⟨st1, heq, hInv1, _, _, _, hroots, _⟩ := method_findUp_ok n st hInv x.toNat hxle
      rw [← hxeq] at heq
      have hbase1 : ∀ a b : Nat, a ≤ n → b ≤ n →
          (sameRootN st1 a b ↔ connectedIn acc (a : Int) (b : Int)) := by
        intro a b ha hb
        rw [← hbase a b ha hb]
        show rootOf _ _ = rootOf _ _ ↔ rootOf _ _ = rootOf _ _
        rw [hroots a ha, hroots b hb]
      obtain ⟨st2, hrun, hInv2, hconn⟩ := ih st1 acc hInv1 hrest hbase1
      refine ⟨st2, ?_, hInv2, ?_⟩
      · rw [runOps_cons]
        show Res.bind (Res.bind (st.findUp x) fun a => .ok a.2) _ = _
        rw [heq]
        simp only [Res.bind_ok]
        exact hrun
      · intro a b ha hb
        rw [hconn a b ha hb, opsPairs_cons]
        show _ ↔ connectedIn (acc ++ ([] ++ opsPairs ops)) _ _
        rw [List.nil_append]
    | isComp xv xu =>
      simp only [Op.inRange, Bool.and_eq_true] at hop
      obtain ⟨hveq, hvle⟩ := inR_spec n xv hop.1
      obtain ⟨hueq, hule⟩ := inR_spec n xu hop.2
      obtain ⟨st1, heq, hInv1, _, _, _, hroots⟩ :=
        isComponent_spec n st hInv xv.toNat xu.toNat hvle hule
      rw [← hveq, ← hueq] at heq
      have hbase1 : ∀ a b : Nat, a ≤ n → b ≤ n →
          (sameRootN st1 a b ↔ connectedIn acc (a : Int) (b : Int)) := by
        intro a b ha hb
        rw [← hbase a b ha hb]
        show rootOf _ _ = rootOf _ _ ↔ rootOf _ _ = rootOf _ _
        rw [hroots a ha, hroots b hb]
      obtain ⟨st2, hrun, hInv2, hconn⟩ := ih st1 acc hInv1 hrest hbase1
      refine ⟨st2, ?_, hInv2, ?_⟩
      · rw [runOps_cons]
        show Res.bind (Res.bind (st.isComponent xv xu) fun a => .ok a.2) _ = _
        rw [heq]
        simp only [Res.bind_ok]
        exact hrun
      · intro a b ha hb
        rw [hconn a b ha hb, opsPairs_cons]
        show _ ↔ connectedIn (acc ++ ([] ++ opsPairs ops)) _ _
        rw [List.nil_append]
    | byRank uu vv =>
      simp only [Op.inRange, Bool.and_eq_true] at hop
      obtain ⟨hueq, hule⟩ := inR_spec n uu hop.1
      obtain ⟨hveq, hvle⟩ := inR_spec n vv hop.2
      obtain ⟨st1, heq, hInv1, _, hmerge, _⟩ :=
        unionByRank_spec n st hInv uu.toNat vv.toNat hule hvle
      rw [← hueq, ← hveq] at heq
      have hbase1 : ∀ a b : Nat, a ≤ n → b ≤ n →
          (sameRootN st1 a b ↔ connectedIn (acc ++ [(uu, vv)]) (a : Int) (b : Int)) := by
        intro a b ha hb
        rw [hmerge a b ha hb, connectedIn_append_pair, ← hbase a b ha hb,
          hueq, hveq, ← hbase a uu.toNat ha hule, ← hbase vv.toNat b hvle hb,
          ← hbase a vv.toNat ha hvle, ← hbase uu.toNat b hule hb]
        simp only [Int.toNat_natCast]
      obtain ⟨st2, hrun, hInv2, hconn⟩ := ih st1 (acc ++ [(uu, vv)]) hInv1 hrest hbase1
      refine ⟨st2, ?_, hInv2, ?_⟩
      · rw [runOps_cons]
        show Res.bind (st.unionByRank uu vv) _ = _
        rw [heq]
        simp only [Res.bind_ok]
        exact hrun
      · intro a b ha hb
        rw [hconn a b ha hb, opsPairs_cons]
        show _ ↔ connectedIn (acc ++ ([(uu, vv)] ++ opsPairs ops)) _ _
        rw [← List.append_assoc]
    | bySize uu vv =>
      simp only [Op.inRange, Bool.and_eq_true] at hop
      obtain ⟨hueq, hule⟩ := inR_spec n uu hop.1
      obtain ⟨hveq, hvle⟩ := inR_spec n vv hop.2
      obtain ⟨st1, heq, hInv1, _, hmerge, _⟩ :=
        unionBySize_spec n st hInv uu.toNat vv.toNat hule hvle
      rw [← hueq, ← hveq] at heq
      have hbase1 : ∀ a b : Nat, a ≤ n → b ≤ n →
          (sameRootN st1 a b ↔ connectedIn (acc ++ [(uu, vv)]) (a : Int) (b : Int)) := by
        intro a b ha hb
        rw [hmerge a b ha hb, connectedIn_append_pair, ← hbase a b ha hb,
          hueq, hveq, ← hbase a uu.toNat ha hule, ← hbase vv.toNat b hvle hb,
          ← hbase a vv.toNat ha hvle, ← hbase uu.toNat b hule hb]
        simp only [Int.toNat_natCast]
      obtain ⟨st2, hrun, hInv2, hconn⟩ := ih st1 (acc ++ [(uu, vv)]) hInv1 hrest hbase1
      refine ⟨st2, ?_, hInv2, ?_⟩
      · rw [runOps_cons]
        show Res.bind (st.unionBySize uu vv) _ = _
        rw [heq]
        simp only [Res.bind_ok]
        exact hrun
      · intro a b ha hb
        rw [hconn a b ha hb, opsPairs_cons]
        show _ ↔ connectedIn (acc ++ ([(uu, vv)] ++ opsPairs ops)) _ _
        rw [← List.append_assoc]

/-! ### Size bookkeeping under effective unions -/

theorem sizeInv_createdState (n : Nat) : SizeInv n (createdState n) := by
  intro r hr _
  have h1 : (createdState n).size.getD r 0 = 1 := by
    show (List.replicate (n + 1) (1 : Int)).getD r 0 = 1
    rw [List.getD_eq_getElem _ _ (by simpa using (by omega : r < n + 1)),
      List.getElem_replicate]
  rw [h1]
  have h2 : (Finset.range (n + 1)).filter
      (fun y => rootOf (createdState n).parent y = r) = {r} := by
    ext y
    simp only [Finset.mem_filter, Finset.mem_range, Finset.mem_singleton]
    constructor
    · rintro ⟨_, h⟩
      rwa [show (createdState n).parent = initParent (n + 1) from rfl,
        rootOf_initParent] at h
    · rintro rfl
      exact ⟨by omega, by
        rw [show (createdState n).parent = initParent (n + 1) from rfl, rootOf_initParent]⟩
  rw [h2, Finset.card_singleton]
  rfl

theorem sizeInv_linked (n : Nat) (st st2 : DisjoinSet) (hInv : Inv n st) (hInv2 : Inv n st2)
    (hSize : SizeInv n st) (a b : Nat) (ha : a ≤ n) (hb : b ≤ n) (hab : a ≠ b)
    (hra : isRootN st.parent a) (hrb : isRootN st.parent b)
    (hmap : ∀ j, j ≤ n → rootOf st2.parent j =
        if rootOf st.parent j = a then b else rootOf st.parent j)
    (hsize : st2.size = st.size.set b (st.size.getD b 0 + st.size.getD a 0)) :
    SizeInv n st2 := by
  have hfa : rootOf st.parent a = a := rootOf_of_isRootN _ _ hra
  have hfb : rootOf st.parent b = b := rootOf_of_isRootN _ _ hrb
  intro r hr hroot2
  have hr_eq : rootOf st2.parent r = r :=
    (isRootN_iff_rootOf_eq _ hInv2.2.2.2 r (by rw [hInv2.2.1]; omega)).mp hroot2
  rw [hmap r hr] at hr_eq
  have hfr : rootOf st.parent r = r ∧ r ≠ a := by
    by_cases hcase : rootOf st.parent r = a
    · rw [if_pos hcase] at hr_eq
      subst hr_eq
      rw [hfb] at hcase
      exact absurd hcase (Ne.symm hab)
    · rw [if_neg hcase] at hr_eq
      refine ⟨hr_eq, ?_⟩
      rintro rfl
      exact hcase hfa
  have hroot_r : isRootN st.parent r :=
    (isRootN_iff_rootOf_eq _ hInv.2.2.2 r (by rw [hInv.2.1]; omega)).mpr hfr.1
  by_cases hrb2 : r = b
  · subst hrb2
    have hval : st2.size.getD r 0 = st.size.getD r 0 + st.size.getD a 0 := by
      rw [hsize, getD_set, if_pos ⟨rfl, by rw [hInv.2.2.1]; omega⟩]
    rw [hval, hSize r hr hrb, hSize a ha hra]
    have hfilter : (Finset.range (n + 1)).filter (fun y => rootOf st2.parent y = r) =
        ((Finset.range (n + 1)).filter (fun y => rootOf st.parent y = r)) ∪
          ((Finset.range (n + 1)).filter (fun y => rootOf st.parent y = a)) := by
      rw [← Finset.filter_or]
      apply Finset.filter_congr
      intro y hy
      rw [Finset.mem_range] at hy
      rw [hmap y (by omega)]
      by_cases hya : rootOf st.parent y = a
      · rw [if_pos hya]
        simp [hya]
      · rw [if_neg hya]
        simp [hya]
    rw [hfilter, Finset.card_union_of_disjoint ?hdisj]
    · push_cast
      ring
    case hdisj =>
      rw [Finset.disjoint_left]
      intro y hy1 hy2
      rw [Finset.mem_filter] at hy1 hy2
      rw [← hy1.2, hy2.2] at hab
      exact hab rfl
  · have hval : st2.size.getD r 0 = st.size.getD r 0 := by
      rw [hsize, getD_set, if_neg (by tauto)]
    rw [hval, hSize r hr hroot_r]
    have hfilter : (Finset.range (n + 1)).filter (fun y => rootOf st2.parent y = r) =
        (Finset.range (n + 1)).filter (fun y => rootOf st.parent y = r) := by
      apply Finset.filter_congr
      intro y hy
      rw [Finset.mem_range] at hy
      rw [hmap y (by omega)]
      by_cases hya : rootOf st.parent y = a
      · rw [if_pos hya]
        constructor
        · intro hcon
          exact absurd hcon.symm hrb2
        · intro hcon
          rw [hya] at hcon
          exact absurd hcon.symm hfr.2
      · rw [if_neg hya]
    rw [hfilter]

theorem unionBySize_sizeInv (n : Nat) (st : DisjoinSet) (hInv : Inv n st)
    (hSize : SizeInv n st) (u v : Nat) (hu : u ≤ n) (hv : v ≤ n)
    (hne : rootOf st.parent u ≠ rootOf st.parent v) :
    ∃ st2, st.unionBySize (u : Int) (v : Int) = .ok st2 ∧ Inv n st2 ∧ SizeInv n st2 := by
  obtain ⟨st2, heq, hInv2, _, _, _, hdet⟩ := unionBySize_spec n st hInv u v hu hv
  have hur_le : rootOf st.parent u ≤ n := rootOf_le n st hInv u hu
  have hvr_le : rootOf st.parent v ≤ n := rootOf_le n st hInv v hv
  have hru : isRootN st.parent (rootOf st.parent u) :=
    hInv.2.2.2.2 u (by rw [hInv.2.1]; omega)
  have hrv : isRootN st.parent (rootOf st.parent v) :=
    hInv.2.2.2.2 v (by rw [hInv.2.1]; omega)
  refine ⟨st2, heq, hInv2, ?_⟩
  obtain ⟨hcase1, hcase2⟩ := hdet hne
  rcases lt_or_gt_of_ne hne with hlt | hgt
  · obtain ⟨hsz, _, hmap⟩ := hcase1 hlt
    exact sizeInv_linked n st st2 hInv hInv2 hSize (rootOf st.parent u) (rootOf st.parent v)
      hur_le hvr_le hne hru hrv hmap hsz
  · obtain ⟨hsz, _, hmap⟩ := hcase2 hgt
    exact sizeInv_linked n st st2 hInv hInv2 hSize (rootOf st.parent v) (rootOf st.parent u)
      hvr_le hur_le (Ne.symm hne) hrv hru hmap hsz

theorem runBySize_sizeInv (n : Nat) : ∀ (ps : List (Int × Int)) (st : DisjoinSet),
    Inv n st → SizeInv n st →
    (∀ q ∈ ps, inR n q.1 = true ∧ inR n q.2 = true) →
    allEffective st ps = true →
    ∃ st2, runOps st (bySizeOps ps) = .ok st2 ∧ Inv n st2 ∧ SizeInv n st2 := by
  intro ps
  induction ps with
  | nil =>
    intro st hInv hSize _ _
    exact ⟨st, rfl, hInv, hSize⟩
  | cons q ps ih =>
    obtain ⟨u, v⟩ := q
    intro st hInv hSize hrange heff
    obtain ⟨hu, hv⟩ := hrange (u, v) (List.mem_cons_self _ _)
    obtain ⟨hueq, hule⟩ := inR_spec n u hu
    obtain ⟨hveq, hvle⟩ := inR_spec n v hv
    unfold allEffective at heff
    rw [Bool.and_eq_true] at heff
    have hne : rootOf st.parent u.toNat ≠ rootOf st.parent v.toNat := by
      have := heff.1
      simpa using this
    obtain ⟨st1, heq, hInv1, hSize1⟩ := unionBySize_sizeInv n st hInv hSize
      u.toNat v.toNat hule hvle hne
    rw [← hueq, ← hveq] at heq
    have heff2 : allEffective st1 ps = true := by
      have h2 := heff.2
      rw [heq] at h2
      exact h2
    obtain ⟨st2, hrun, hInv2, hSize2⟩ := ih st1 hInv1 hSize1
      (fun q hq => hrange q (List.mem_cons_of_mem _ hq)) heff2
    refine ⟨st2, ?_, hInv2, hSize2⟩
    show Res.bind (st.unionBySize u v) _ = _
    rw [heq]
    simp only [Res.bind_ok]
    exact hrun

/-! ### Frame lemmas: which vectors each operation reads and writes -/

theorem findUp_frame (rkA szA rkB szB p : List Int) (x : Int) :
    DisjoinSet.findUp ⟨rkA, p, szA⟩ x =
      Res.map (fun a => (a.1, ⟨rkA, a.2.parent, szA⟩)) (DisjoinSet.findUp ⟨rkB, p, szB⟩ x) := by
  unfold DisjoinSet.findUp
  cases h : findUpP p x <;> rfl

theorem unionByRank_size_frame (rk p szA szB : List Int) (u v : Int) :
    DisjoinSet.unionByRank ⟨rk, p, szA⟩ u v =
      Res.map (fun t => ⟨t.rank, t.parent, szA⟩) (DisjoinSet.unionByRank ⟨rk, p, szB⟩ u v) := by
  unfold DisjoinSet.unionByRank DisjoinSet.findUp
  cases h1 : findUpP p u with
  | err e => rfl
  | fuelOut => rfl
  | ok a =>
    simp only [Res.bind_ok]
    cases h2 : findUpP a.2 v with
    | err e => rfl
    | fuelOut => rfl
    | ok b =>
      simp only [Res.bind_ok]
      cases h3 : readVec rk a.1 with
      | err e => rfl
      | fuelOut => rfl
      | ok ru =>
        simp only [Res.bind_ok]
        cases h4 : readVec rk b.1 with
        | err e => rfl
        | fuelOut => rfl
        | ok rv =>
          simp only [Res.bind_ok]
          split_ifs with hc1 hc2
          · cases h5 : writeVec b.2 a.1 b.1 <;> rfl
          · cases h5 : writeVec b.2 b.1 a.1 <;> rfl
          · cases h5 : writeVec b.2 a.1 b.1 with
            | err e => rfl
            | fuelOut => rfl
            | ok p2 =>
              simp only [Res.bind_ok]
              cases h6 : writeVec rk b.1 (rv + 1) <;> rfl

theorem unionBySize_rank_frame (rkA rkB p sz : List Int) (u v : Int) :
    DisjoinSet.unionBySize ⟨rkA, p, sz⟩ u v =
      Res.map (fun t => ⟨rkA, t.parent, t.size⟩) (DisjoinSet.unionBySize ⟨rkB, p, sz⟩ u v) := by
  unfold DisjoinSet.unionBySize DisjoinSet.findUp
  cases h1 : findUpP p u with
  | err e => rfl
  | fuelOut => rfl
  | ok a =>
    simp only [Res.bind_ok]
    cases h2 : findUpP a.2 v with
    | err e => rfl
    | fuelOut => rfl
    | ok b =>
      simp only [Res.bind_ok]
      split_ifs with hc1
      · cases h3 : writeVec b.2 a.1 b.1 with
        | err e => rfl
        | fuelOut => rfl
        | ok p2 =>
          simp only [Res.bind_ok]
          cases h4 : readVec sz b.1 with
          | err e => rfl
          | fuelOut => rfl
          | ok sv =>
            simp only [Res.bind_ok]
            cases h5 : readVec sz a.1 with
            | err e => rfl
            | fuelOut => rfl
            | ok su =>
              simp only [Res.bind_ok]
              cases h6 : writeVec sz b.1 (sv + su) <;> rfl
      · cases h3 : writeVec b.2 b.1 a.1 with
        | err e => rfl
        | fuelOut => rfl
        | ok p2 =>
          simp only [Res.bind_ok]
          cases h4 : readVec sz a.1 with
          | err e => rfl
          | fuelOut => rfl
          | ok su =>
            simp only [Res.bind_ok]
            cases h5 : readVec sz b.1 with
            | err e => rfl
            | fuelOut => rfl
            | ok sv =>
              simp only [Res.bind_ok]
              cases h6 : writeVec sz a.1 (su + sv) <;> rfl

theorem isComponent_frame (rkA szA rkB szB p : List Int) (x y : Int) :
    DisjoinSet.isComponent ⟨rkA, p, szA⟩ x y =
      Res.map (fun a => (a.1, ⟨rkA, a.2.parent, szA⟩)) (DisjoinSet.isComponent ⟨rkB, p, szB⟩ x y) := by
  unfold DisjoinSet.isComponent DisjoinSet.findUp
  cases h1 : findUpP p x with
  | err e => rfl
  | fuelOut => rfl
  | ok a =>
    simp only [Res.bind_ok]
    cases h2 : findUpP a.2 y <;> rfl

theorem findUpP_oob (p : List Int) (x : Int) (h : x < 0 ∨ (p.length : Int) ≤ x) :
    findUpP p x = .err .oobAccess := by
  show findUpAux (p.length + 1) p x = _
  show Res.bind (readVec p x) _ = _
  rw [readVec_oob p x h]
  rfl

/-! ### Reachable states -/

theorem base_createdState (n : Nat) : ∀ a b : Nat, a ≤ n → b ≤ n →
    (sameRootN (createdState n) a b ↔ connectedIn [] (a : Int) (b : Int)) := by
  intro a b _ _
  rw [sameRootN_createdState, connectedIn_nil, Nat.cast_inj]

theorem reachable_master (n : Nat) (ops : List Op) (st0 st : DisjoinSet)
    (hc : DisjoinSet.create (n : Int) = .ok st0)
    (hrange : ∀ op ∈ ops, op.inRange n = true)
    (hrun : runOps st0 ops = .ok st) :
    Inv n st ∧ (∀ a b : Nat, a ≤ n → b ≤ n →
      (sameRootN st a b ↔ connectedIn (opsPairs ops) (a : Int) (b : Int))) := by
  rw [create_natCast] at hc
  injection hc with h
  subst h
  obtain ⟨st2, hrun2, hInv2, hconn⟩ := runOps_master n ops (createdState n) []
    (Inv_createdState n) hrange (base_createdState n)
  rw [hrun2] at hrun
  injection hrun with h2
  subst h2
  refine ⟨hInv2, ?_⟩
  intro a b ha hb
  rw [hconn a b ha hb, List.nil_append]

/-! ### The claims -/

/-- C1: for every valid universe size `n` and every sequence of in-range
union calls (`unionByRank` or `unionBySize`) on a structure built by the
constructor, `isComponent(u, v)` afterwards returns `true` exactly when `u`
and `v` are connected in the undirected graph whose edges are the union
pairs of the sequence, for all `u, v` in `[0, n]`. -/
theorem claim_C1 (n : Nat) (ops : List Op) (st0 st : DisjoinSet)
    (hc : DisjoinSet.create (n : Int) = .ok st0)
    (hall : ∀ op ∈ ops, op.isUnion = true)
    (hrange : ∀ op ∈ ops, op.inRange n = true)
    (hrun : runOps st0 ops = .ok st)
    (u v : Nat) (hu : u ≤ n) (hv : v ≤ n) :
    ∃ b st2, st.isComponent (u : Int) (v : Int) = .ok (b, st2) ∧
      (b = true ↔ connectedIn (opsPairs ops) (u : Int) (v : Int)) := by
  obtain ⟨hInv, hconn⟩ := reachable_master n ops st0 st hc hrange hrun
  obtain ⟨st2, hic, _⟩ := isComponent_spec n st hInv u v hu hv
  refine ⟨_, st2, hic, ?_⟩
  rw [decide_eq_true_eq]
  exact hconn u v hu hv

/-- C1 witness: `n = 2`, one `unionByRank(0,1)`; afterwards
`isComponent(0,1)` agrees with connectivity of the single edge `(0,1)`. -/
theorem claim_C1_witness :
    ∃ b st2, (DisjoinSet.mk [0, 1, 0] [1, 1, 2] [1, 1, 1]).isComponent
        (((0 : Nat)) : Int) (((1 : Nat)) : Int) = .ok (b, st2) ∧
      (b = true ↔ connectedIn (opsPairs [Op.byRank 0 1])
        (((0 : Nat)) : Int) (((1 : Nat)) : Int)) :=
  claim_C1 2 [Op.byRank 0 1] ⟨[0, 0, 0], [0, 1, 2], [1, 1, 1]⟩
    ⟨[0, 1, 0], [1, 1, 2], [1, 1, 1]⟩ (by decide) (by decide) (by decide) (by decide)
    0 1 (by decide) (by decide)

/-- C2: in every state reachable from construction with `n ≥ 0` by in-range
calls, following parent pointers from any `i` in `[0, n]` terminates at a
root, the parent graph has no cycle other than the self-loops at roots, and
each element reaches a unique root, so the root classes partition `[0, n]`. -/
theorem claim_C2 (n : Nat) (ops : List Op) (st0 st : DisjoinSet)
    (hc : DisjoinSet.create (n : Int) = .ok st0)
    (hrange : ∀ op ∈ ops, op.inRange n = true)
    (hrun : runOps st0 ops = .ok st) :
    (∀ i, i ≤ n → ∃ k, isRootN st.parent (iterP st.parent k i)) ∧
    (∀ i, i ≤ n → ∀ k, 0 < k → iterP st.parent k i = i → isRootN st.parent i) ∧
    (∀ i, i ≤ n → ∃! r, r ≤ n ∧ isRootN st.parent r ∧ ∃ k, iterP st.parent k i = r) := by
  obtain ⟨hInv, _⟩ := reachable_master n ops st0 st hc hrange hrun
  obtain ⟨hlr, hlp, hls, hWF⟩ := hInv
  refine ⟨?_, ?_, ?_⟩
  · intro i hi
    exact ⟨st.parent.length, hWF.2 i (by omega)⟩
  · intro i hi k hk hcyc
    exact cycle_isRoot st.parent hWF i (by omega) k hk hcyc
  · intro i hi
    refine ⟨rootOf st.parent i, ⟨?_, hWF.2 i (by omega), st.parent.length, rfl⟩, ?_⟩
    · have := rootOf_lt st.parent hWF.1 i (by omega)
      omega
    · rintro r ⟨_, hroot, k, hiter⟩
      rw [← hiter]
      exact (rootOf_unique st.parent hWF.1 i (by omega) k (by rwa [hiter])).symm

/-- C2 witness: the fresh structure with `n = 1` and no calls. -/
theorem claim_C2_witness :
    (∀ i, i ≤ 1 → ∃ k, isRootN (DisjoinSet.mk [0, 0] [0, 1] [1, 1]).parent
      (iterP (DisjoinSet.mk [0, 0] [0, 1] [1, 1]).parent k i)) ∧
    (∀ i, i ≤ 1 → ∀ k, 0 < k →
      iterP (DisjoinSet.mk [0, 0] [0, 1] [1, 1]).parent k i = i →
      isRootN (DisjoinSet.mk [0, 0] [0, 1] [1, 1]).parent i) ∧
    (∀ i, i ≤ 1 → ∃! r, r ≤ 1 ∧ isRootN (DisjoinSet.mk [0, 0] [0, 1] [1, 1]).parent r ∧
      ∃ k, iterP (DisjoinSet.mk [0, 0] [0, 1] [1, 1]).parent k i = r) :=
  claim_C2 1 [] ⟨[0, 0], [0, 1], [1, 1]⟩ ⟨[0, 0], [0, 1], [1, 1]⟩
    (by decide) (by decide) (by decide)

/-- C9: every operation, given in-range arguments in a reachable state,
terminates normally (the embedding returns `ok`: no fuel exhaustion, no
abnormal outcome). -/
theorem claim_C9 (n : Nat) (ops : List Op) (st0 st : DisjoinSet)
    (hc : DisjoinSet.create (n : Int) = .ok st0)
    (hrange : ∀ op ∈ ops, op.inRange n = true)
    (hrun : runOps st0 ops = .ok st)
    (op : Op) (hop : op.inRange n = true) :
    ∃ st2, stepOp st op = .ok st2 := by
  obtain ⟨hInv, hconn⟩ := reachable_master n ops st0 st hc hrange hrun
  obtain ⟨st2, hrun2, _, _⟩ := runOps_master n [op] st (opsPairs ops) hInv
    (by intro o ho; rw [List.mem_singleton] at ho; subst ho; exact hop) hconn
  rw [runOps_cons] at hrun2
  cases h : stepOp st op with
  | ok a => exact ⟨a, rfl⟩
  | err e => rw [h] at hrun2; exact absurd hrun2 (by simp)
  | fuelOut => rw [h] at hrun2; exact absurd hrun2 (by simp)

/-- C9 witness: `find(0)` on the fresh structure with `n = 1`. -/
theorem claim_C9_witness :
    ∃ st2, stepOp (DisjoinSet.mk [0, 0] [0, 1] [1, 1]) (Op.find 0) = .ok st2 :=
  claim_C9 1 [] ⟨[0, 0], [0, 1], [1, 1]⟩ ⟨[0, 0], [0, 1], [1, 1]⟩
    (by decide) (by decide) (by decide) (Op.find 0) (by decide)

/-- C5: in every reachable state, `find(x)` succeeds and returns the
representative; calling it again returns the same representative; after the
call every node on the traversed path from `x` (all parent iterates,
including `x` itself) has its parent equal to the returned root (full path
compression); and the logical partition is unchanged. -/
theorem claim_C5 (n : Nat) (ops : List Op) (st0 st : DisjoinSet)
    (hc : DisjoinSet.create (n : Int) = .ok st0)
    (hrange : ∀ op ∈ ops, op.inRange n = true)
    (hrun : runOps st0 ops = .ok st)
    (x : Nat) (hx : x ≤ n) :
    ∃ r st1 st2,
      st.findUp (x : Int) = .ok (r, st1) ∧
      st1.findUp (x : Int) = .ok (r, st2) ∧
      (∀ t, st1.parent.getD (iterP st.parent t x) 0 = r) ∧
      st1.parent.getD x 0 = r ∧
      (∀ a b, a ≤ n → b ≤ n → (sameRootN st1 a b ↔ sameRootN st a b)) := by
  obtain ⟨hInv, _⟩ := reachable_master n ops st0 st hc hrange hrun
  obtain ⟨st1, heq1, hInv1, _, _, _, hroots1, hpath1⟩ := method_findUp_ok n st hInv x hx
  obtain ⟨st2, heq2, _, _, _, _, _, _⟩ := method_findUp_ok n st1 hInv1 x hx
  rw [hroots1 x hx] at heq2
  refine ⟨_, st1, st2, heq1, heq2, hpath1, ?_, ?_⟩
  · have := hpath1 0
    simpa using this
  · intro a b ha hb
    show rootOf _ _ = rootOf _ _ ↔ rootOf _ _ = rootOf _ _
    rw [hroots1 a ha, hroots1 b hb]

/-- C5 witness: `n = 1` after `unionByRank(0,1)`, finding `0`. -/
theorem claim_C5_witness :
    ∃ r st1 st2,
      (DisjoinSet.mk [0, 1] [1, 1] [1, 1]).findUp (((0 : Nat)) : Int) = .ok (r, st1) ∧
      st1.findUp (((0 : Nat)) : Int) = .ok (r, st2) ∧
      (∀ t, st1.parent.getD (iterP (DisjoinSet.mk [0, 1] [1, 1] [1, 1]).parent t 0) 0 = r) ∧
      st1.parent.getD 0 0 = r ∧
      (∀ a b, a ≤ 1 → b ≤ 1 → (sameRootN st1 a b ↔
        sameRootN (DisjoinSet.mk [0, 1] [1, 1] [1, 1]) a b)) :=
  claim_C5 1 [Op.byRank 0 1] ⟨[0, 0], [0, 1], [1, 1]⟩ ⟨[0, 1], [1, 1], [1, 1]⟩
    (by decide) (by decide) (by decide) 0 (by decide)

/-- C3 counterexample: on `n = 1`, a second `union(0,1)` is NOT a no-op:
`unionByRank` increments `rank[find(0)]` from 1 to 2 (there is no
`ur == vr` check in the source), and `unionBySize` doubles `size[find(0)]`
from 2 to 4. -/
theorem claim_C3_counterexample :
    DisjoinSet.create 1 = .ok ⟨[0, 0], [0, 1], [1, 1]⟩ ∧
    (DisjoinSet.mk [0, 0] [0, 1] [1, 1]).unionByRank 0 1 = .ok ⟨[0, 1], [1, 1], [1, 1]⟩ ∧
    (DisjoinSet.mk [0, 1] [1, 1] [1, 1]).unionByRank 0 1 = .ok ⟨[0, 2], [1, 1], [1, 1]⟩ ∧
    DisjoinSet.mk [0, 2] [1, 1] [1, 1] ≠ DisjoinSet.mk [0, 1] [1, 1] [1, 1] ∧
    (DisjoinSet.mk [0, 0] [0, 1] [1, 1]).unionBySize 0 1 = .ok ⟨[0, 0], [1, 1], [1, 2]⟩ ∧
    (DisjoinSet.mk [0, 0] [1, 1] [1, 2]).unionBySize 0 1 = .ok ⟨[0, 0], [1, 1], [1, 4]⟩ ∧
    DisjoinSet.mk [0, 0] [1, 1] [1, 4] ≠ DisjoinSet.mk [0, 0] [1, 1] [1, 2] := by
  decide

/-- C3 (amended): a union call on elements already in the same set raises no
error and leaves the logical partition unchanged — the parent vector changes
at most by path compression — but it is not a full no-op: `unionByRank`
increments the common root's rank entry, and `unionBySize` doubles the
common root's size entry. -/
theorem claim_C3 (n : Nat) (ops : List Op) (st0 st : DisjoinSet)
    (hc : DisjoinSet.create (n : Int) = .ok st0)
    (hrange : ∀ op ∈ ops, op.inRange n = true)
    (hrun : runOps st0 ops = .ok st)
    (u v : Nat) (hu : u ≤ n) (hv : v ≤ n)
    (hsame : rootOf st.parent u = rootOf st.parent v) :
    (∃ st2, st.unionByRank (u : Int) (v : Int) = .ok st2 ∧
      st2.size = st.size ∧
      (∀ a b, a ≤ n → b ≤ n → (sameRootN st2 a b ↔ sameRootN st a b)) ∧
      Compat st.parent st2.parent ∧
      st2.rank = st.rank.set (rootOf st.parent v)
        (st.rank.getD (rootOf st.parent v) 0 + 1)) ∧
    (∃ st3, st.unionBySize (u : Int) (v : Int) = .ok st3 ∧
      st3.rank = st.rank ∧
      (∀ a b, a ≤ n → b ≤ n → (sameRootN st3 a b ↔ sameRootN st a b)) ∧
      Compat st.parent st3.parent ∧
      st3.size = st.size.set (rootOf st.parent u)
        (st.size.getD (rootOf st.parent u) 0 + st.size.getD (rootOf st.parent u) 0)) := by
  obtain ⟨hInv, _⟩ := reachable_master n ops st0 st hc hrange hrun
  constructor
  · obtain ⟨st2, heq, _, hsz, hmerge, hcase⟩ := unionByRank_spec n st hInv u v hu hv
    obtain ⟨hrank, hcomp⟩ := hcase hsame
    refine ⟨st2, heq, hsz, ?_, hcomp, hrank⟩
    intro a b ha hb
    rw [hmerge a b ha hb]
    simp only [sameRootN] at hsame ⊢
    omega
  · obtain ⟨st3, heq, _, hrank, hmerge, hcase, _⟩ := unionBySize_spec n st hInv u v hu hv
    obtain ⟨hsz, hcomp⟩ := hcase hsame
    refine ⟨st3, heq, hrank, ?_, hcomp, hsz⟩
    intro a b ha hb
    rw [hmerge a b ha hb]
    simp only [sameRootN] at hsame ⊢
    omega

/-- C3 witness: `n = 1` after `unionByRank(0,1)`, repeating the union. -/
theorem claim_C3_witness :
    (∃ st2, (DisjoinSet.mk [0, 1] [1, 1] [1, 1]).unionByRank
        (((0 : Nat)) : Int) (((1 : Nat)) : Int) = .ok st2 ∧
      st2.size = (DisjoinSet.mk [0, 1] [1, 1] [1, 1]).size ∧
      (∀ a b, a ≤ 1 → b ≤ 1 → (sameRootN st2 a b ↔
        sameRootN (DisjoinSet.mk [0, 1] [1, 1] [1, 1]) a b)) ∧
      Compat (DisjoinSet.mk [0, 1] [1, 1] [1, 1]).parent st2.parent ∧
      st2.rank = (DisjoinSet.mk [0, 1] [1, 1] [1, 1]).rank.set
        (rootOf (DisjoinSet.mk [0, 1] [1, 1] [1, 1]).parent 1)
        ((DisjoinSet.mk [0, 1] [1, 1] [1, 1]).rank.getD
          (rootOf (DisjoinSet.mk [0, 1] [1, 1] [1, 1]).parent 1) 0 + 1)) ∧
    (∃ st3, (DisjoinSet.mk [0, 1] [1, 1] [1, 1]).unionBySize
        (((0 : Nat)) : Int) (((1 : Nat)) : Int) = .ok st3 ∧
      st3.rank = (DisjoinSet.mk [0, 1] [1, 1] [1, 1]).rank ∧
      (∀ a b, a ≤ 1 → b ≤ 1 → (sameRootN st3 a b ↔
        sameRootN (DisjoinSet.mk [0, 1] [1, 1] [1, 1]) a b)) ∧
      Compat (DisjoinSet.mk [0, 1] [1, 1] [1, 1]).parent st3.parent ∧
      st3.size = (DisjoinSet.mk [0, 1] [1, 1] [1, 1]).size.set
        (rootOf (DisjoinSet.mk [0, 1] [1, 1] [1, 1]).parent 0)
        ((DisjoinSet.mk [0, 1] [1, 1] [1, 1]).size.getD
          (rootOf (DisjoinSet.mk [0, 1] [1, 1] [1, 1]).parent 0) 0 +
          (DisjoinSet.mk [0, 1] [1, 1] [1, 1]).size.getD
            (rootOf (DisjoinSet.mk [0, 1] [1, 1] [1, 1]).parent 0) 0)) :=
  claim_C3 1 [Op.byRank 0 1] ⟨[0, 0], [0, 1], [1, 1]⟩ ⟨[0, 1], [1, 1], [1, 1]⟩
    (by decide) (by decide) (by decide) 0 1 (by decide) (by decide) (by decide)

/-- C4 counterexample: on `n = 1`, the sequence `unionBySize(0,1)` twice
leaves `size[find(0)] = 4` although `find(0)`'s class has 2 elements — the
redundant second union doubles the size entry, so the claim fails for
arbitrary sequences. -/
theorem claim_C4_counterexample :
    DisjoinSet.create 1 = .ok ⟨[0, 0], [0, 1], [1, 1]⟩ ∧
    runOps ⟨[0, 0], [0, 1], [1, 1]⟩ (bySizeOps [(0, 1), (0, 1)]) =
      .ok ⟨[0, 0], [1, 1], [1, 4]⟩ ∧
    ¬ ((DisjoinSet.mk [0, 0] [1, 1] [1, 4]).size.getD
        (rootOf (DisjoinSet.mk [0, 0] [1, 1] [1, 4]).parent 0) 0 =
      (((Finset.range 2).filter
        (fun y => rootOf (DisjoinSet.mk [0, 0] [1, 1] [1, 4]).parent y =
          rootOf (DisjoinSet.mk [0, 0] [1, 1] [1, 4]).parent 0)).card : Int)) := by
  decide

/-- C4 (amended): after construction with size `n` and any sequence of
in-range `unionBySize` calls in which every call's two arguments lie in
distinct sets at the moment of the call, `size[find(x)]` equals the number
of elements `y` in `[0, n]` with the same representative as `x`. -/
theorem claim_C4 (n : Nat) (ps : List (Int × Int)) (st0 st : DisjoinSet)
    (hc : DisjoinSet.create (n : Int) = .ok st0)
    (hrange : ∀ q ∈ ps, inR n q.1 = true ∧ inR n q.2 = true)
    (heff : allEffective st0 ps = true)
    (hrun : runOps st0 (bySizeOps ps) = .ok st)
    (x : Nat) (hx : x ≤ n) :
    ∃ st1, st.findUp (x : Int) = .ok (((rootOf st.parent x : Nat) : Int), st1) ∧
      st.size.getD (rootOf st.parent x) 0 =
        (((Finset.range (n + 1)).filter
          (fun y => rootOf st.parent y = rootOf st.parent x)).card : Int) := by
  rw [create_natCast] at hc
  injection hc with h
  subst h
  obtain ⟨st2, hrun2, hInv2, hSize2⟩ := runBySize_sizeInv n ps (createdState n)
    (Inv_createdState n) (sizeInv_createdState n) hrange heff
  rw [hrun2] at hrun
  injection hrun with h2
  subst h2
  obtain ⟨st1, heq1, _⟩ := method_findUp_ok n st2 hInv2 x hx
  refine ⟨st1, heq1, ?_⟩
  have hrle : rootOf st2.parent x ≤ n := rootOf_le n st2 hInv2 x hx
  exact hSize2 (rootOf st2.parent x) hrle
    (hInv2.2.2.2.2 x (by rw [hInv2.2.1]; omega))

/-- C4 witness: `n = 1`, the single effective union `(0,1)`, at `x = 0`. -/
theorem claim_C4_witness :
    ∃ st1, (DisjoinSet.mk [0, 0] [1, 1] [1, 2]).findUp (((0 : Nat)) : Int) =
        .ok (((rootOf (DisjoinSet.mk [0, 0] [1, 1] [1, 2]).parent 0 : Nat) : Int), st1) ∧
      (DisjoinSet.mk [0, 0] [1, 1] [1, 2]).size.getD
          (rootOf (DisjoinSet.mk [0, 0] [1, 1] [1, 2]).parent 0) 0 =
        (((Finset.range 2).filter
          (fun y => rootOf (DisjoinSet.mk [0, 0] [1, 1] [1, 2]).parent y =
            rootOf (DisjoinSet.mk [0, 0] [1, 1] [1, 2]).parent 0)).card : Int) :=
  claim_C4 1 [(0, 1)] ⟨[0, 0], [0, 1], [1, 1]⟩ ⟨[0, 0], [1, 1], [1, 2]⟩
    (by decide) (by decide) (by decide) (by decide) 0 (by decide)

/-- C6 counterexample: `find(n+1)` on a structure created with `n = 1` does
not fail with `OutOfRange`; it performs an unchecked out-of-bounds vector
access (undefined behavior, modeled as `oobAccess`). -/
theorem claim_C6_counterexample :
    DisjoinSet.create 1 = .ok ⟨[0, 0], [0, 1], [1, 1]⟩ ∧
    (DisjoinSet.mk [0, 0] [0, 1] [1, 1]).findUp 2 = .err .oobAccess ∧
    (DisjoinSet.mk [0, 0] [0, 1] [1, 1]).findUp 2 ≠ .err .outOfRange := by
  decide

/-- C6 (amended): an operation given an element identifier outside `[0, n]`
as its first element argument performs an unchecked out-of-bounds vector
access — undefined behavior in C++, modeled as the stuck outcome
`oobAccess` — rather than surfacing the spec's `OutOfRange` error; the code
contains no range check. -/
theorem claim_C6 (n : Nat) (ops : List Op) (st0 st : DisjoinSet)
    (hc : DisjoinSet.create (n : Int) = .ok st0)
    (hrange : ∀ op ∈ ops, op.inRange n = true)
    (hrun : runOps st0 ops = .ok st)
    (x : Int) (hx : x < 0 ∨ (n : Int) < x) :
    st.findUp x = .err .oobAccess ∧
    (∀ w : Int, st.unionByRank x w = .err .oobAccess) ∧
    (∀ w : Int, st.unionBySize x w = .err .oobAccess) ∧
    (∀ w : Int, st.isComponent x w = .err .oobAccess) ∧
    (∀ w : Nat, w ≤ n → st.unionByRank (w : Int) x = .err .oobAccess) ∧
    (∀ w : Nat, w ≤ n → st.unionBySize (w : Int) x = .err .oobAccess) ∧
    (∀ w : Nat, w ≤ n → st.isComponent (w : Int) x = .err .oobAccess) ∧
    st.findUp x ≠ .err .outOfRange := by
  obtain ⟨hInv, _⟩ := reachable_master n ops st0 st hc hrange hrun
  have hlen : st.parent.length = n + 1 := hInv.2.1
  have hfp : findUpP st.parent x = .err .oobAccess := by
    refine findUpP_oob _ _ ?_
    rw [hlen]
    push_cast
    omega
  have hf : st.findUp x = .err .oobAccess := by
    unfold DisjoinSet.findUp
    rw [hfp]
    rfl
  have hsecond : ∀ w : Nat, w ≤ n → ∃ r st1, st.findUp (w : Int) = .ok (r, st1) ∧
      st1.findUp x = .err .oobAccess := by
    intro w hw
    obtain ⟨st1, heq1, hInv1, _⟩ := method_findUp_ok n st hInv w hw
    refine ⟨_, st1, heq1, ?_⟩
    unfold DisjoinSet.findUp
    rw [findUpP_oob _ _ (by rw [hInv1.2.1]; push_cast; omega)]
    rfl
  refine ⟨hf, ?_, ?_, ?_, ?_, ?_, ?_, by rw [hf]; decide⟩
  · intro w
    unfold DisjoinSet.unionByRank
    rw [hf]
    rfl
  · intro w
    unfold DisjoinSet.unionBySize
    rw [hf]
    rfl
  · intro w
    unfold DisjoinSet.isComponent
    rw [hf]
    rfl
  · intro w hw
    obtain ⟨r, st1, heq1, herr⟩ := hsecond w hw
    unfold DisjoinSet.unionByRank
    rw [heq1]
    simp only [Res.bind_ok]
    rw [herr]
    rfl
  · intro w hw
    obtain ⟨r, st1, heq1, herr⟩ := hsecond w hw
    unfold DisjoinSet.unionBySize
    rw [heq1]
    simp only [Res.bind_ok]
    rw [herr]
    rfl
  · intro w hw
    obtain ⟨r, st1, heq1, herr⟩ := hsecond w hw
    unfold DisjoinSet.isComponent
    rw [heq1]
    simp only [Res.bind_ok]
    rw [herr]
    rfl

/-- C6 witness: the fresh structure with `n = 1`, probed at `x = 2`. -/
theorem claim_C6_witness :
    (DisjoinSet.mk [0, 0] [0, 1] [1, 1]).findUp 2 = .err .oobAccess ∧
    (∀ w : Int, (DisjoinSet.mk [0, 0] [0, 1] [1, 1]).unionByRank 2 w = .err .oobAccess) ∧
    (∀ w : Int, (DisjoinSet.mk [0, 0] [0, 1] [1, 1]).unionBySize 2 w = .err .oobAccess) ∧
    (∀ w : Int, (DisjoinSet.mk [0, 0] [0, 1] [1, 1]).isComponent 2 w = .err .oobAccess) ∧
    (∀ w : Nat, w ≤ 1 →
      (DisjoinSet.mk [0, 0] [0, 1] [1, 1]).unionByRank (w : Int) 2 = .err .oobAccess) ∧
    (∀ w : Nat, w ≤ 1 →
      (DisjoinSet.mk [0, 0] [0, 1] [1, 1]).unionBySize (w : Int) 2 = .err .oobAccess) ∧
    (∀ w : Nat, w ≤ 1 →
      (DisjoinSet.mk [0, 0] [0, 1] [1, 1]).isComponent (w : Int) 2 = .err .oobAccess) ∧
    (DisjoinSet.mk [0, 0] [0, 1] [1, 1]).findUp 2 ≠ .err .outOfRange :=
  claim_C6 1 [] ⟨[0, 0], [0, 1], [1, 1]⟩ ⟨[0, 0], [0, 1], [1, 1]⟩
    (by decide) (by decide) (by decide) 2 (by decide)

/-- C7: when `unionBySize(u, v)` is called with in-range `u, v` whose roots
are distinct, the root with the numerically smaller index is attached under
the root with the larger index (the index comparison decides, not the size
values), the absorbed root's size is added to the surviving root's size,
and the rank vector is neither modified nor read (the result is independent
of its contents). -/
theorem claim_C7 (n : Nat) (ops : List Op) (st0 st : DisjoinSet)
    (hc : DisjoinSet.create (n : Int) = .ok st0)
    (hrange : ∀ op ∈ ops, op.inRange n = true)
    (hrun : runOps st0 ops = .ok st)
    (u v : Nat) (hu : u ≤ n) (hv : v ≤ n)
    (hne : rootOf st.parent u ≠ rootOf st.parent v) :
    ∃ st2, st.unionBySize (u : Int) (v : Int) = .ok st2 ∧
      st2.rank = st.rank ∧
      (∀ rk : List Int, DisjoinSet.unionBySize ⟨rk, st.parent, st.size⟩ (u : Int) (v : Int) =
        Res.map (fun t => ⟨rk, t.parent, t.size⟩) (st.unionBySize (u : Int) (v : Int))) ∧
      (rootOf st.parent u < rootOf st.parent v →
        st2.parent.getD (rootOf st.parent u) 0 = ((rootOf st.parent v : Nat) : Int) ∧
        st2.size = st.size.set (rootOf st.parent v)
          (st.size.getD (rootOf st.parent v) 0 + st.size.getD (rootOf st.parent u) 0)) ∧
      (rootOf st.parent v < rootOf st.parent u →
        st2.parent.getD (rootOf st.parent v) 0 = ((rootOf st.parent u : Nat) : Int) ∧
        st2.size = st.size.set (rootOf st.parent u)
          (st.size.getD (rootOf st.parent u) 0 + st.size.getD (rootOf st.parent v) 0)) := by
  obtain ⟨hInv, _⟩ := reachable_master n ops st0 st hc hrange hrun
  obtain ⟨st2, heq, _, hrank, _, _, hdet⟩ := unionBySize_spec n st hInv u v hu hv
  obtain ⟨hcase1, hcase2⟩ := hdet hne
  refine ⟨st2, heq, hrank, ?_, ?_, ?_⟩
  · intro rk
    exact unionBySize_rank_frame rk st.rank st.parent st.size (u : Int) (v : Int)
  · intro hlt
    obtain ⟨hsz, hget, _⟩ := hcase1 hlt
    exact ⟨hget, hsz⟩
  · intro hgt
    obtain ⟨hsz, hget, _⟩ := hcase2 hgt
    exact ⟨hget, hsz⟩

/-- C7 witness: fresh structure with `n = 2`, `unionBySize(0, 1)`. -/
theorem claim_C7_witness :
    ∃ st2, (DisjoinSet.mk [0, 0, 0] [0, 1, 2] [1, 1, 1]).unionBySize
        (((0 : Nat)) : Int) (((1 : Nat)) : Int) = .ok st2 ∧
      st2.rank = (DisjoinSet.mk [0, 0, 0] [0, 1, 2] [1, 1, 1]).rank ∧
      (∀ rk : List Int, DisjoinSet.unionBySize
          ⟨rk, (DisjoinSet.mk [0, 0, 0] [0, 1, 2] [1, 1, 1]).parent,
            (DisjoinSet.mk [0, 0, 0] [0, 1, 2] [1, 1, 1]).size⟩
          (((0 : Nat)) : Int) (((1 : Nat)) : Int) =
        Res.map (fun t => ⟨rk, t.parent, t.size⟩)
          ((DisjoinSet.mk [0, 0, 0] [0, 1, 2] [1, 1, 1]).unionBySize
            (((0 : Nat)) : Int) (((1 : Nat)) : Int))) ∧
      (rootOf (DisjoinSet.mk [0, 0, 0] [0, 1, 2] [1, 1, 1]).parent 0 <
          rootOf (DisjoinSet.mk [0, 0, 0] [0, 1, 2] [1, 1, 1]).parent 1 →
        st2.parent.getD (rootOf (DisjoinSet.mk [0, 0, 0] [0, 1, 2] [1, 1, 1]).parent 0) 0 =
          ((rootOf (DisjoinSet.mk [0, 0, 0] [0, 1, 2] [1, 1, 1]).parent 1 : Nat) : Int) ∧
        st2.size = (DisjoinSet.mk [0, 0, 0] [0, 1, 2] [1, 1, 1]).size.set
          (rootOf (DisjoinSet.mk [0, 0, 0] [0, 1, 2] [1, 1, 1]).parent 1)
          ((DisjoinSet.mk [0, 0, 0] [0, 1, 2] [1, 1, 1]).size.getD
            (rootOf (DisjoinSet.mk [0, 0, 0] [0, 1, 2] [1, 1, 1]).parent 1) 0 +
            (DisjoinSet.mk [0, 0, 0] [0, 1, 2] [1, 1, 1]).size.getD
              (rootOf (DisjoinSet.mk [0, 0, 0] [0, 1, 2] [1, 1, 1]).parent 0) 0)) ∧
      (rootOf (DisjoinSet.mk [0, 0, 0] [0, 1, 2] [1, 1, 1]).parent 1 <
          rootOf (DisjoinSet.mk [0, 0, 0] [0, 1, 2] [1, 1, 1]).parent 0 →
        st2.parent.getD (rootOf (DisjoinSet.mk [0, 0, 0] [0, 1, 2] [1, 1, 1]).parent 1) 0 =
          ((rootOf (DisjoinSet.mk [0, 0, 0] [0, 1, 2] [1, 1, 1]).parent 0 : Nat) : Int) ∧
        st2.size = (DisjoinSet.mk [0, 0, 0] [0, 1, 2] [1, 1, 1]).size.set
          (rootOf (DisjoinSet.mk [0, 0, 0] [0, 1, 2] [1, 1, 1]).parent 0)
          ((DisjoinSet.mk [0, 0, 0] [0, 1, 2] [1, 1, 1]).size.getD
            (rootOf (DisjoinSet.mk [0, 0, 0] [0, 1, 2] [1, 1, 1]).parent 0) 0 +
            (DisjoinSet.mk [0, 0, 0] [0, 1, 2] [1, 1, 1]).size.getD
              (rootOf (DisjoinSet.mk [0, 0, 0] [0, 1, 2] [1, 1, 1]).parent 1) 0)) :=
  claim_C7 2 [] ⟨[0, 0, 0], [0, 1, 2], [1, 1, 1]⟩ ⟨[0, 0, 0], [0, 1, 2], [1, 1, 1]⟩
    (by decide) (by decide) (by decide) 0 1 (by decide) (by decide) (by decide)

/-- C8 counterexample: construction with the negative size `-1` does not
fail with `InvalidSize`; it succeeds, producing empty vectors (the three
`resize(n+1)` calls get argument 0; the source has no negative-size check). -/
theorem claim_C8_counterexample :
    DisjoinSet.create (-1) = .ok ⟨[], [], []⟩ ∧
    DisjoinSet.create (-1) ≠ .err .invalidSize := by
  decide

/-- C8 (amended): construction never raises `InvalidSize`.  For `n = -1` it
succeeds with empty vectors; for `n ≤ -2` the `resize` calls fail with
`length_error` (the negative argument converts to a huge `size_t`); for
`n ≥ 0` it succeeds and initializes `parent[i] = i`, `rank[i] = 0`,
`size[i] = 1` for every `i` in `[0, n]`. -/
theorem claim_C8 :
    (∀ n : Int, n + 1 < 0 → DisjoinSet.create n = .err .lengthError) ∧
    (∀ n : Int, n < 0 → DisjoinSet.create n ≠ .err .invalidSize) ∧
    DisjoinSet.create (-1) = .ok ⟨[], [], []⟩ ∧
    (∀ n : Nat, ∃ st0, DisjoinSet.create (n : Int) = .ok st0 ∧
      st0.rank.length = n + 1 ∧ st0.parent.length = n + 1 ∧ st0.size.length = n + 1 ∧
      (∀ i, i ≤ n → st0.parent.getD i 0 = (i : Int) ∧ st0.rank.getD i 0 = 0 ∧
        st0.size.getD i 0 = 1)) := by
  refine ⟨?_, ?_, by decide, ?_⟩
  · intro n hn
    unfold DisjoinSet.create
    rw [if_pos hn]
  · intro n hn
    unfold DisjoinSet.create
    by_cases h : n + 1 < 0
    · rw [if_pos h]
      decide
    · rw [if_neg h]
      intro hcon
      cases hcon
  · intro n
    refine ⟨createdState n, create_natCast n, List.length_replicate _ _,
      initParent_length _, List.length_replicate _ _, ?_⟩
    intro i hi
    refine ⟨?_, ?_, ?_⟩
    · show (initParent (n + 1)).getD i 0 = _
      exact initParent_getD (n + 1) i (by omega)
    · show (List.replicate (n + 1) (0 : Int)).getD i 0 = 0
      rw [List.getD_eq_getElem _ _ (by simpa using (by omega : i < n + 1)),
        List.getElem_replicate]
    · show (List.replicate (n + 1) (1 : Int)).getD i 0 = 1
      rw [List.getD_eq_getElem _ _ (by simpa using (by omega : i < n + 1)),
        List.getElem_replicate]

/-- C8 witness: instances of the amended statement at `n = -2`, `n = -1`,
and `n = 3`. -/
theorem claim_C8_witness :
    DisjoinSet.create (-2) = .err .lengthError ∧
    DisjoinSet.create (-1) ≠ .err .invalidSize ∧
    (∃ st0, DisjoinSet.create ((3 : Nat) : Int) = .ok st0 ∧
      st0.rank.length = 4 ∧ st0.parent.length = 4 ∧ st0.size.length = 4 ∧
      (∀ i, i ≤ 3 → st0.parent.getD i 0 = (i : Int) ∧ st0.rank.getD i 0 = 0 ∧
        st0.size.getD i 0 = 1)) :=
  ⟨claim_C8.1 (-2) (by decide), claim_C8.2.1 (-1) (by decide), claim_C8.2.2.2 3⟩

/-- C10: `unionByRank` neither reads nor writes the size vector,
`unionBySize` neither reads nor writes the rank vector, and `findUp` and
`isComponent` modify neither rank nor size and depend on neither — each
operation touches only the parent vector plus its own variant's
bookkeeping vector. -/
theorem claim_C10 :
    (∀ (rkA szA rkB szB p : List Int) (x : Int),
      DisjoinSet.findUp ⟨rkA, p, szA⟩ x =
        Res.map (fun a => (a.1, ⟨rkA, a.2.parent, szA⟩)) (DisjoinSet.findUp ⟨rkB, p, szB⟩ x)) ∧
    (∀ (rk p szA szB : List Int) (u v : Int),
      DisjoinSet.unionByRank ⟨rk, p, szA⟩ u v =
        Res.map (fun t => ⟨t.rank, t.parent, szA⟩) (DisjoinSet.unionByRank ⟨rk, p, szB⟩ u v)) ∧
    (∀ (rkA rkB p sz : List Int) (u v : Int),
      DisjoinSet.unionBySize ⟨rkA, p, sz⟩ u v =
        Res.map (fun t => ⟨rkA, t.parent, t.size⟩) (DisjoinSet.unionBySize ⟨rkB, p, sz⟩ u v)) ∧
    (∀ (rkA szA rkB szB p : List Int) (x y : Int),
      DisjoinSet.isComponent ⟨rkA, p, szA⟩ x y =
        Res.map (fun a => (a.1, ⟨rkA, a.2.parent, szA⟩))
          (DisjoinSet.isComponent ⟨rkB, p, szB⟩ x y)) :=
  ⟨findUp_frame, unionByRank_size_frame, unionBySize_rank_frame, isComponent_frame⟩

end SystemDesign
